import Mathlib

/-!
Verification development for a C++ signal/slot ("Signal") and observable
value ("Property") library.

`Signal<Args...>` keeps a `std::map<std::size_t, std::function<void(Args...)>>`
(`m_slots`) together with a `std::size_t` counter `m_id`.  `connect` inserts at
key `++m_id` and returns `m_id`; `disconnect` erases a key; `disconnect_all`
clears the map; `emit` runs `for (auto it : m_slots) it.second(p...);` over the
live map.

`Property<T>` keeps a value `m_value`, two signals `m_prior_to_change` and
`m_on_change`, and an optional upstream connection (`m_connection`,
`m_connection_id`).  `set` is equality gated: it returns at once when the new
value equals the current one, and otherwise emits the prior signal with the old
value, stores the new value, and emits the on-change signal with it.
`connect_from` subscribes a forwarding callback on the source's on-change
signal and then synchronises via `set(source.get())`.

The embedding below models `std::size_t` as `Nat` reduced modulo `2 ^ 64` where
the counter is incremented, the ordered map as a strictly sorted association
list, and the range-for over the live map as a fuel-indexed interpreter that
recomputes the successor key at every step and reports iterator invalidation
when a callback erases the map node the hidden iterator rests on.
-/

/-- Width of `std::size_t` values (64-bit platform): counters wrap modulo this. -/
def USIZE : Nat := 2 ^ 64

/-- Keys of an association list. -/
def keysOf {β : Type} (l : List (Nat × β)) : List Nat := l.map Prod.fst

/-- `std::map::insert` on a strictly sorted association list: places the new
key in order and does not overwrite an existing key. -/
def insertSorted {β : Type} (k : Nat) (v : β) : List (Nat × β) → List (Nat × β)
  | [] => [(k, v)]
  | (k', v') :: rest =>
    if k < k' then (k, v) :: (k', v') :: rest
    else if k = k' then (k', v') :: rest
    else (k', v') :: insertSorted k v rest

/-- `std::map::erase(key)`: removes the entry with the given key, if any. -/
def eraseKey {β : Type} (k : Nat) : List (Nat × β) → List (Nat × β)
  | [] => []
  | (k', v') :: rest => if k = k' then rest else (k', v') :: eraseKey k rest

/-- Does key `k` lie strictly after iteration position `pos`
(`none` = before the first element)? -/
def afterPos (pos : Option Nat) (k : Nat) : Bool :=
  match pos with
  | none => true
  | some p => decide (p < k)

/-- Successor lookup of the range-for over a live `std::map`: the first (hence,
on a sorted list, smallest) entry whose key lies strictly after `pos`. -/
def nextSlot {β : Type} (pos : Option Nat) (l : List (Nat × β)) : Option (Nat × β) :=
  l.find? (fun e => afterPos pos e.1)

/-- State of a `Signal` object: the slot map `m_slots` and the counter `m_id`. -/
structure SigSt (β : Type) where
  m_slots : List (Nat × β)
  m_id : Nat


/-- A default-constructed `Signal` (`m_id = 0`, empty map). -/
def freshSig {β : Type} : SigSt β := ⟨[], 0⟩

/-- `Signal::connect`: inserts the slot at key `++m_id` and returns `m_id`. -/
def connectS {β : Type} (cb : β) (s : SigSt β) : Nat × SigSt β :=
  let id := (s.m_id + 1) % USIZE
  (id, { m_slots := insertSorted id cb s.m_slots, m_id := id })

/-- `Signal::disconnect`: erases the entry with the given id. -/
def disconnectSig {β : Type} (id : Nat) (s : SigSt β) : SigSt β :=
  { s with m_slots := eraseKey id s.m_slots }

/-- `Signal::disconnect_all`: clears the slot map (the counter is untouched). -/
def disconnectAllSig {β : Type} (s : SigSt β) : SigSt β :=
  { s with m_slots := [] }

/-!  ### Deep-embedded callbacks for `Signal` in isolation

A slot of the standalone `Signal` model performs a finite list of actions on
invocation: record an external observation, connect a further slot to the same
signal, disconnect an id from it, or disconnect all. -/

inductive Act : Type where
  | log : Nat → Act
  | connect : List Act → Act
  | disconnect : Nat → Act
  | disconnectAll : Act


/-- Body of a slot in the standalone `Signal` model. -/
abbrev Body := List Act

/-- A body that never mutates the subscriber set (observation only). -/
def isLogOnly (b : Body) : Bool :=
  b.all fun a => match a with
    | .log _ => true
    | _ => false

/-- Observations produced by a body. -/
def logsOfBody : Body → List Nat
  | [] => []
  | .log t :: r => t :: logsOfBody r
  | .connect _ :: r => logsOfBody r
  | .disconnect _ :: r => logsOfBody r
  | .disconnectAll :: r => logsOfBody r

/-- Observations produced by a list of slots, in order. -/
def traceLogs : List (Nat × Body) → List Nat
  | [] => []
  | e :: r => logsOfBody e.2 ++ traceLogs r

/-- Run the actions of one invoked slot.  `pos` is the key of the map node the
emit loop's hidden iterator currently rests on; the returned flag records
whether that node was erased (which invalidates the iterator). -/
def runActs : Body → SigSt Body → List Nat → Nat → Bool → SigSt Body × List Nat × Bool
  | [], s, lg, _, er => (s, lg, er)
  | .log t :: rest, s, lg, pos, er => runActs rest s (lg ++ [t]) pos er
  | .connect body :: rest, s, lg, pos, er => runActs rest (connectS body s).2 lg pos er
  | .disconnect i :: rest, s, lg, pos, er =>
    runActs rest (disconnectSig i s) lg pos
      (er || (decide (i = pos) && (keysOf s.m_slots).contains i))
  | .disconnectAll :: rest, s, lg, pos, er =>
    runActs rest (disconnectAllSig s) lg pos (er || (keysOf s.m_slots).contains pos)

/-- Result of `Signal::emit`: normal completion, iterator invalidation
(undefined behaviour of the C++ loop: `++it` on an erased node), or fuel
exhaustion of the model. -/
inductive EmitRes (α : Type) : Type where
  | ok : SigSt Body → List (Nat × α) → List Nat → EmitRes α
  | invalidated : List (Nat × α) → List Nat → EmitRes α
  | fuelOut : EmitRes α


/-- The range-for of `Signal::emit` over the live map: look up the successor of
`pos` in the current map, invoke its body, and continue — unless the body
erased the current node, which invalidates the hidden iterator.  `inv` records
each invocation together with the emitted argument. -/
def emitLoop {α : Type} (x : α) :
    Nat → SigSt Body → Option Nat → List (Nat × α) → List Nat → EmitRes α
  | 0, _, _, _, _ => .fuelOut
  | f + 1, s, pos, inv, lg =>
    match nextSlot pos s.m_slots with
    | none => .ok s inv lg
    | some (id, body) =>
      match runActs body s lg id false with
      | (_, lg', true) => .invalidated (inv ++ [(id, x)]) lg'
      | (s', lg', false) => emitLoop x f s' (some id) (inv ++ [(id, x)]) lg'

/-- `Signal::emit`. -/
def emitSig {α : Type} (x : α) (fuel : Nat) (s : SigSt Body) : EmitRes α :=
  emitLoop x fuel s none [] []

/-- Top-level operations on a `Signal` between emissions. -/
inductive SOp : Type where
  | connect : Body → SOp
  | disconnect : Nat → SOp
  | disconnectAll : SOp


/-- Number of `connect` operations in a sequence. -/
def countConnects : List SOp → Nat
  | [] => 0
  | .connect _ :: r => countConnects r + 1
  | .disconnect _ :: r => countConnects r
  | .disconnectAll :: r => countConnects r

/-- Run a sequence of operations, collecting the ids returned by `connect`. -/
def runOps : List SOp → SigSt Body → SigSt Body × List Nat
  | [], s => (s, [])
  | .connect cb :: rest, s =>
    let c := connectS cb s
    let r := runOps rest c.2
    (r.1, c.1 :: r.2)
  | .disconnect i :: rest, s => runOps rest (disconnectSig i s)
  | .disconnectAll :: rest, s => runOps rest (disconnectAllSig s)

/-- Connect a whole list of slots in order, collecting the returned ids. -/
def connectAll : List Body → SigSt Body → SigSt Body × List Nat
  | [], s => (s, [])
  | cb :: rest, s =>
    let c := connectS cb s
    let r := connectAll rest c.2
    (r.1, c.1 :: r.2)

/-! ### The `Property` world

Properties live in a world addressed by `Nat` (modelling object identity of
the C++ `Property<T>*` pointers).  The callbacks the claims need on property
signals are external observers and the binding forwarder installed by
`connect_from` (the lambda `[this](T const& v){ set(v); }`). -/

/-- A callback registered on a property's signal: an external observer with a
tag, or the forwarding callback of a binding, targeting a property id. -/
inductive PCb : Type where
  | observe : Nat → PCb
  | forward : Nat → PCb

/-- Is a callback a pure observer? -/
def isObs (cb : PCb) : Bool :=
  match cb with
  | .observe _ => true
  | .forward _ => false

/-- Tag of an observer callback (junk value `0` on a forwarder). -/
def tagOf (cb : PCb) : Nat :=
  match cb with
  | .observe t => t
  | .forward _ => 0

/-- State of one `Property<T>` object. -/
structure PropSt (V : Type) where
  m_value : V
  m_prior_to_change : SigSt PCb
  m_on_change : SigSt PCb
  m_connection : Option Nat
  m_connection_id : Nat

/-- A world of properties, addressed by object identity. -/
abbrev World (V : Type) := Nat → PropSt V

/-- Replace the property at address `i`. -/
def wupdate {V : Type} (w : World V) (i : Nat) (p : PropSt V) : World V :=
  fun j => if j = i then p else w j

/-- Observation log: each observer invocation records its tag and the value. -/
abbrev Log (V : Type) := List (Nat × V)

/-- Select one of the two signals of a property: `true` picks `m_on_change`,
`false` picks `m_prior_to_change`. -/
def sigOf {V : Type} (p : PropSt V) (onChange : Bool) : SigSt PCb :=
  if onChange then p.m_on_change else p.m_prior_to_change

mutual

/-- `Property::set`: return at once when the new value equals the current one;
otherwise emit `m_prior_to_change` with the old value, store the new value,
and emit `m_on_change` with the stored value. -/
def pset {V : Type} [DecidableEq V] :
    Nat → World V → Log V → Nat → V → Option (World V × Log V)
  | 0, _, _, _, _ => none
  | f + 1, w, lg, p, v =>
    if v = (w p).m_value then some (w, lg)
    else
      match emitLoopP f w lg p false ((w p).m_value) none with
      | none => none
      | some (w1, lg1) =>
        let w2 := wupdate w1 p { w1 p with m_value := v }
        emitLoopP f w2 lg1 p true ((w2 p).m_value) none

/-- The range-for of `Signal::emit` for a property's signal: iterate the live
slot map of the signal selected by `oc` on the property at `owner`,
re-reading it from the world at every step.  Observers append to the log;
forwarders run `Property::set` on their target. -/
def emitLoopP {V : Type} [DecidableEq V] :
    Nat → World V → Log V → Nat → Bool → V → Option Nat → Option (World V × Log V)
  | 0, _, _, _, _, _, _ => none
  | f + 1, w, lg, owner, oc, x, pos =>
    match nextSlot pos (sigOf (w owner) oc).m_slots with
    | none => some (w, lg)
    | some (id, cb) =>
      match cb with
      | .observe t => emitLoopP f w (lg ++ [(t, x)]) owner oc x (some id)
      | .forward tgt =>
        match pset f w lg tgt x with
        | none => none
        | some (w', lg') => emitLoopP f w' lg' owner oc x (some id)

end

/-- `Property::set_with_no_emit`: store the value, fire nothing. -/
def set_with_no_emit {V : Type} (w : World V) (p : Nat) (v : V) : World V :=
  wupdate w p { w p with m_value := v }

/-- `Property::get`. -/
def pget {V : Type} (w : World V) (p : Nat) : V := (w p).m_value

/-- `Property::disconnect`: when a connection is recorded, erase the held
subscription id from the source's on-change signal, then reset
`m_connection_id` to `size_t(-1)` and `m_connection` to null. -/
def pdisconnect {V : Type} (w : World V) (a : Nat) : World V :=
  match (w a).m_connection with
  | none => w
  | some src =>
    let w1 := wupdate w src
      { w src with m_on_change := disconnectSig (w a).m_connection_id (w src).m_on_change }
    wupdate w1 a { w1 a with m_connection_id := USIZE - 1, m_connection := none }

/-- `Property::connect_from`: tear down any existing binding, record the
source, subscribe the forwarding callback on the source's on-change signal,
record the returned id, and synchronise via `set(source.get())`. -/
def connect_from {V : Type} [DecidableEq V]
    (fuel : Nat) (w : World V) (lg : Log V) (a b : Nat) : Option (World V × Log V) :=
  let w0 := pdisconnect w a
  let w1 := wupdate w0 a { w0 a with m_connection := some b }
  let c := connectS (PCb.forward a) (w1 b).m_on_change
  let w2 := wupdate w1 b { w1 b with m_on_change := c.2 }
  let w3 := wupdate w2 a { w2 a with m_connection_id := c.1 }
  pset fuel w3 lg a ((w3 b).m_value)

/-- `Property::disconnect_auditors`: clear both signals' slot maps. -/
def disconnect_auditors {V : Type} (w : World V) (p : Nat) : World V :=
  wupdate w p
    { w p with
      m_on_change := disconnectAllSig (w p).m_on_change,
      m_prior_to_change := disconnectAllSig (w p).m_prior_to_change }

/-- The `Property` copy constructor: copies the value only; the two signals
are default-constructed (`Signal` copying is deleted) and the binding members
are initialised as in the default constructor. -/
def copyCtor {V : Type} (p : PropSt V) : PropSt V :=
  { m_value := p.m_value
    m_prior_to_change := freshSig
    m_on_change := freshSig
    m_connection := none
    m_connection_id := USIZE - 1 }

/-- The `Property` copy assignment: `set(xi_other.m_value)` on the target. -/
def copyAssign {V : Type} [DecidableEq V]
    (fuel : Nat) (w : World V) (lg : Log V) (q p : Nat) : Option (World V × Log V) :=
  pset fuel w lg q ((w p).m_value)

/-! ### Helper lemmas on the list primitives -/

theorem keysOf_append {β : Type} (l₁ l₂ : List (Nat × β)) :
    keysOf (l₁ ++ l₂) = keysOf l₁ ++ keysOf l₂ := by
  simp [keysOf]

theorem find?_skip {γ : Type} (p : γ → Bool) (P R : List γ)
    (h : ∀ e ∈ P, p e = false) :
    List.find? p (P ++ R) = List.find? p R := by
  induction P with
  | nil => simp
  | cons a P ih =>
    have ha : ¬ (p a = true) := by simp [h a (by simp)]
    rw [List.cons_append, List.find?_cons_of_neg _ ha, ih fun e he => h e (by simp [he])]

theorem nextSlot_none {β : Type} (pos : Option Nat) (l : List (Nat × β))
    (h : ∀ e ∈ l, afterPos pos e.1 = false) : nextSlot pos l = none := by
  have := find?_skip (fun e => afterPos pos e.1) l [] h
  simpa [nextSlot] using this

theorem insertSorted_append {β : Type} (k : Nat) (v : β) (l : List (Nat × β))
    (h : ∀ k0 ∈ keysOf l, k0 < k) : insertSorted k v l = l ++ [(k, v)] := by
  induction l with
  | nil => simp [insertSorted]
  | cons a l ih =>
    have ha : a.1 < k := h a.1 (by simp [keysOf])
    have h1 : ¬ k < a.1 := by omega
    have h2 : ¬ k = a.1 := by omega
    cases a with
    | mk k' v' =>
      simp only [insertSorted, if_neg h1, if_neg h2]
      rw [ih fun k0 hk0 => h k0 (by simp [keysOf] at hk0 ⊢; tauto)]
      simp

theorem eraseKey_of_not_mem {β : Type} (k : Nat) (l : List (Nat × β))
    (h : k ∉ keysOf l) : eraseKey k l = l := by
  induction l with
  | nil => simp [eraseKey]
  | cons a l ih =>
    simp [keysOf] at h
    cases a with
    | mk k' v' =>
      simp at h
      simp [eraseKey, h.1, ih (by simp [keysOf]; tauto)]

theorem eraseKey_sublist {β : Type} (k : Nat) (l : List (Nat × β)) :
    (eraseKey k l).Sublist l := by
  induction l with
  | nil => simp [eraseKey]
  | cons a l ih =>
    cases a with
    | mk k' v' =>
      by_cases h : k = k'
      · simp [eraseKey, h]
      · simpa [eraseKey, h] using ih.cons₂ (k', v')

theorem eraseKey_append_of_not_mem_left {β : Type} (k : Nat) (l₁ l₂ : List (Nat × β))
    (h : k ∉ keysOf l₁) : eraseKey k (l₁ ++ l₂) = l₁ ++ eraseKey k l₂ := by
  induction l₁ with
  | nil => simp
  | cons a l ih =>
    simp [keysOf] at h
    cases a with
    | mk k' v' =>
      simp at h
      simp [eraseKey, h.1, ih (by simp [keysOf]; tauto)]

theorem mem_of_mem_eraseKey {β : Type} {k : Nat} {l : List (Nat × β)} {e : Nat × β}
    (h : e ∈ eraseKey k l) : e ∈ l :=
  (eraseKey_sublist k l).mem h

theorem wupdate_same {V : Type} (w : World V) (i : Nat) (p : PropSt V) :
    wupdate w i p i = p := by
  simp [wupdate]

theorem wupdate_other {V : Type} (w : World V) (i j : Nat) (p : PropSt V)
    (h : j ≠ i) : wupdate w i p j = w j := by
  simp [wupdate, h]

theorem wupdate_self {V : Type} (w : World V) (i : Nat) :
    wupdate w i (w i) = w := by
  funext j
  by_cases h : j = i
  · simp [wupdate, h]
  · simp [wupdate, h]

/-- Position reached after stepping through the entries of `A`. -/
def posAfter {β : Type} (pos : Option Nat) (A : List (Nat × β)) : Option Nat :=
  match A.getLast? with
  | none => pos
  | some e => some e.1

theorem posAfter_nil {β : Type} (pos : Option Nat) :
    posAfter pos ([] : List (Nat × β)) = pos := rfl

theorem posAfter_cons {β : Type} (pos : Option Nat) (a : Nat × β) (A : List (Nat × β)) :
    posAfter pos (a :: A) = posAfter (some a.1) A := by
  cases A with
  | nil => rfl
  | cons b A =>
    rcases hg : (b :: A).getLast? with _ | e
    · exact absurd hg (by simp)
    · simp [posAfter, List.getLast?_cons_cons, hg]

/-- Keys of an earlier block are smaller than keys of a later block in a
strictly sorted association list. -/
theorem keys_lt_of_pairwise {β : Type} {L1 L2 : List (Nat × β)} {e f : Nat × β}
    (h : List.Pairwise (· < ·) (keysOf (L1 ++ L2)))
    (he : e ∈ L1) (hf : f ∈ L2) : e.1 < f.1 := by
  rw [keysOf_append] at h
  exact (List.pairwise_append.mp h).2.2 e.1 (by simp only [keysOf]; exact List.mem_map_of_mem _ he)
    f.1 (by simp only [keysOf]; exact List.mem_map_of_mem _ hf)

/-- After stepping through the log-only block `A`, everything at or before `A`
is at or before the new position and everything in `rest` is after it. -/
theorem posAfter_spec {β : Type} (pos : Option Nat) (P A rest : List (Nat × β))
    (hsort : List.Pairwise (· < ·) (keysOf (P ++ A ++ rest)))
    (hP : ∀ e ∈ P, afterPos pos e.1 = false)
    (hA : ∀ e ∈ A ++ rest, afterPos pos e.1 = true) :
    (∀ e ∈ P ++ A, afterPos (posAfter pos A) e.1 = false) ∧
      (∀ e ∈ rest, afterPos (posAfter pos A) e.1 = true) := by
  rcases List.eq_nil_or_concat A with hAe | ⟨A0, l, hAc⟩
  · subst hAe
    refine ⟨fun e he => hP e (by simpa using he), fun e he => hA e (by simpa using he)⟩
  · subst hAc
    simp only [List.concat_eq_append] at hsort hA ⊢
    have hlast : posAfter pos (A0 ++ [l]) = some l.1 := by
      simp [posAfter]
    rw [hlast]
    constructor
    · intro e he
      rcases List.mem_append.mp he with heP | heA
      · have hlt : e.1 < l.1 := by
          have hs : List.Pairwise (· < ·) (keysOf (P ++ ((A0 ++ [l]) ++ rest))) := by
            simpa [List.append_assoc] using hsort
          exact keys_lt_of_pairwise hs heP (by simp)
        simp [afterPos]; omega
      · rcases List.mem_append.mp heA with heA0 | hel
        · have hlt : e.1 < l.1 := by
            have hs : List.Pairwise (· < ·) (keysOf ((P ++ A0) ++ ([l] ++ rest))) := by
              simpa [List.append_assoc] using hsort
            exact keys_lt_of_pairwise hs (List.mem_append.mpr (Or.inr heA0)) (by simp)
          simp [afterPos]; omega
        · simp only [List.mem_singleton] at hel
          subst hel
          simp [afterPos]
    · intro e he
      have hlt : l.1 < e.1 := by
        have hs : List.Pairwise (· < ·) (keysOf ((P ++ (A0 ++ [l])) ++ rest)) := by
          simpa [List.append_assoc] using hsort
        exact keys_lt_of_pairwise hs (by simp) he
      simp [afterPos]; omega

/-! ### Iteration lemmas for the standalone `Signal` model -/

theorem runActs_logonly (b : Body) (s : SigSt Body) (lg : List Nat) (pos : Nat) (er : Bool)
    (h : isLogOnly b = true) :
    runActs b s lg pos er = (s, lg ++ logsOfBody b, er) := by
  induction b generalizing lg with
  | nil => simp [runActs, logsOfBody]
  | cons a rest ih =>
    cases a with
    | log t =>
      have hr : isLogOnly rest = true := by
        simpa [isLogOnly, List.all_cons] using h
      rw [runActs, ih (lg ++ [t]) hr]
      simp [logsOfBody]
    | connect body => simp [isLogOnly] at h
    | disconnect i => simp [isLogOnly] at h
    | disconnectAll => simp [isLogOnly] at h

theorem emitLoop_end {α : Type} (x : α) (f : Nat) (s : SigSt Body) (pos : Option Nat)
    (inv : List (Nat × α)) (lg : List Nat)
    (h : ∀ e ∈ s.m_slots, afterPos pos e.1 = false) (hf : 0 < f) :
    emitLoop x f s pos inv lg = .ok s inv lg := by
  cases f with
  | zero => omega
  | succ f => simp [emitLoop, nextSlot_none pos s.m_slots h]

/-- Stepping the emit loop through a block `A` of log-only slots: the state is
unchanged, each slot of `A` is recorded as invoked with the argument, the
observations of `A` are appended, and the loop continues after `A` with the
fuel decreased by one per step. -/
theorem emitLoop_skip {α : Type} (x : α) :
    ∀ (A P rest : List (Nat × Body)) (pos : Option Nat) (f : Nat) (s : SigSt Body)
      (inv : List (Nat × α)) (lg : List Nat),
      s.m_slots = P ++ A ++ rest →
      (∀ e ∈ P, afterPos pos e.1 = false) →
      (∀ e ∈ A ++ rest, afterPos pos e.1 = true) →
      List.Pairwise (· < ·) (keysOf s.m_slots) →
      (∀ e ∈ A, isLogOnly e.2 = true) →
      emitLoop x (A.length + f) s pos inv lg =
        emitLoop x f s (posAfter pos A) (inv ++ A.map fun e => (e.1, x))
          (lg ++ traceLogs A) := by
  intro A
  induction A with
  | nil =>
    intro P rest pos f s inv lg _ _ _ _ _
    simp [posAfter_nil, traceLogs]
  | cons a A ih =>
    intro P rest pos f s inv lg hslots hP hA hsort hlog
    obtain ⟨k, b⟩ := a
    have hnext : nextSlot pos s.m_slots = some (k, b) := by
      rw [hslots, nextSlot, List.append_assoc,
        find?_skip _ P (((k, b) :: A) ++ rest) hP]
      exact List.find?_cons_of_pos _ (hA (k, b) (by simp))
    have hrun : runActs b s lg k false = (s, lg ++ logsOfBody b, false) :=
      runActs_logonly b s lg k false (hlog (k, b) (by simp))
    have hlen : ((k, b) :: A).length + f = (A.length + f) + 1 := by
      simp [List.length_cons]; omega
    rw [hlen]
    simp only [emitLoop, hnext, hrun]
    have hsort' : List.Pairwise (· < ·) (keysOf (P ++ [(k, b)] ++ (A ++ rest))) := by
      rw [hslots] at hsort
      simpa [List.append_assoc] using hsort
    have hspec := posAfter_spec pos P [(k, b)] (A ++ rest) hsort' hP
      (fun e he => hA e (by simpa [List.append_assoc] using he))
    have hposa : posAfter pos [(k, b)] = some k := by simp [posAfter]
    rw [hposa] at hspec
    have hrec := ih (P ++ [(k, b)]) rest (some k) f s (inv ++ [(k, x)]) (lg ++ logsOfBody b)
      (by rw [hslots]; simp) (fun e he => hspec.1 e (by simpa using he))
      (fun e he => hspec.2 e he) hsort (fun e he => hlog e (by simp [he]))
    rw [hrec, posAfter_cons]
    simp [traceLogs]

/-- Running the emit loop to completion over a log-only remainder. -/
theorem emitLoop_pure {α : Type} (x : α) (R P : List (Nat × Body)) (pos : Option Nat)
    (s : SigSt Body) (inv : List (Nat × α)) (lg : List Nat)
    (hslots : s.m_slots = P ++ R)
    (hP : ∀ e ∈ P, afterPos pos e.1 = false)
    (hR : ∀ e ∈ R, afterPos pos e.1 = true)
    (hsort : List.Pairwise (· < ·) (keysOf s.m_slots))
    (hlog : ∀ e ∈ R, isLogOnly e.2 = true) :
    emitLoop x (R.length + 1) s pos inv lg =
      .ok s (inv ++ R.map fun e => (e.1, x)) (lg ++ traceLogs R) := by
  have hskip := emitLoop_skip x R P [] pos 1 s inv lg (by simpa using hslots)
    hP (by simpa using hR) hsort hlog
  rw [hskip]
  have hsort' : List.Pairwise (· < ·) (keysOf (P ++ R ++ [])) := by
    rw [hslots] at hsort
    simpa using hsort
  have hspec := posAfter_spec pos P R [] hsort' hP (by simpa using hR)
  exact emitLoop_end x 1 s (posAfter pos R) _ _
    (fun e he => hspec.1 e (by rw [hslots] at he; exact he)) (by omega)

/-! ### Iteration lemmas for the `Property` world -/

/-- Log entries produced by a block of observer slots receiving `x`. -/
def obsLog {V : Type} (A : List (Nat × PCb)) (x : V) : Log V :=
  A.map fun e => (tagOf e.2, x)

theorem emitLoopP_end {V : Type} [DecidableEq V] (f : Nat) (w : World V) (lg : Log V)
    (owner : Nat) (oc : Bool) (x : V) (pos : Option Nat)
    (h : ∀ e ∈ (sigOf (w owner) oc).m_slots, afterPos pos e.1 = false) (hf : 0 < f) :
    emitLoopP f w lg owner oc x pos = some (w, lg) := by
  cases f with
  | zero => omega
  | succ f => simp [emitLoopP, nextSlot_none pos _ h]

/-- Stepping the property emit loop through a block `A` of observer slots:
the world is unchanged, the observations of `A` are appended, and the loop
continues after `A` with the fuel decreased by one per step. -/
theorem emitLoopP_skip {V : Type} [DecidableEq V] (owner : Nat) (oc : Bool) (x : V) :
    ∀ (A P rest : List (Nat × PCb)) (pos : Option Nat) (f : Nat) (w : World V) (lg : Log V),
      (sigOf (w owner) oc).m_slots = P ++ A ++ rest →
      (∀ e ∈ P, afterPos pos e.1 = false) →
      (∀ e ∈ A ++ rest, afterPos pos e.1 = true) →
      List.Pairwise (· < ·) (keysOf ((sigOf (w owner) oc).m_slots)) →
      (∀ e ∈ A, isObs e.2 = true) →
      emitLoopP (A.length + f) w lg owner oc x pos =
        emitLoopP f w (lg ++ obsLog A x) owner oc x (posAfter pos A) := by
  intro A
  induction A with
  | nil =>
    intro P rest pos f w lg _ _ _ _ _
    simp [posAfter_nil, obsLog]
  | cons a A ih =>
    intro P rest pos f w lg hslots hP hA hsort hobs
    obtain ⟨k, cb⟩ := a
    cases cb with
    | forward tgt =>
      have hbad := hobs (k, .forward tgt) (by simp)
      simp [isObs] at hbad
    | observe t =>
      have hnext : nextSlot pos (sigOf (w owner) oc).m_slots = some (k, .observe t) := by
        rw [hslots, nextSlot, List.append_assoc,
          find?_skip _ P (((k, PCb.observe t) :: A) ++ rest) hP]
        exact List.find?_cons_of_pos _ (hA (k, .observe t) (by simp))
      have hlen : ((k, PCb.observe t) :: A).length + f = (A.length + f) + 1 := by
        simp [List.length_cons]; omega
      rw [hlen]
      simp only [emitLoopP, hnext]
      have hsort' : List.Pairwise (· < ·)
          (keysOf (P ++ [(k, PCb.observe t)] ++ (A ++ rest))) := by
        rw [hslots] at hsort
        simpa [List.append_assoc] using hsort
      have hspec := posAfter_spec pos P [(k, PCb.observe t)] (A ++ rest) hsort' hP
        (fun e he => hA e (by simpa [List.append_assoc] using he))
      have hposa : posAfter pos [(k, PCb.observe t)] = some k := by simp [posAfter]
      rw [hposa] at hspec
      have hrec := ih (P ++ [(k, PCb.observe t)]) rest (some k) f w (lg ++ [(t, x)])
        (by rw [hslots]; simp) (fun e he => hspec.1 e (by simpa using he))
        (fun e he => hspec.2 e he) hsort (fun e he => hobs e (by simp [he]))
      rw [hrec, posAfter_cons]
      simp [obsLog, tagOf]

/-- Running the property emit loop to completion over an observer remainder. -/
theorem emitLoopP_pure {V : Type} [DecidableEq V] (owner : Nat) (oc : Bool) (x : V)
    (R P : List (Nat × PCb)) (pos : Option Nat) (w : World V) (lg : Log V)
    (hslots : (sigOf (w owner) oc).m_slots = P ++ R)
    (hP : ∀ e ∈ P, afterPos pos e.1 = false)
    (hR : ∀ e ∈ R, afterPos pos e.1 = true)
    (hsort : List.Pairwise (· < ·) (keysOf ((sigOf (w owner) oc).m_slots)))
    (hobs : ∀ e ∈ R, isObs e.2 = true) :
    emitLoopP (R.length + 1) w lg owner oc x pos = some (w, lg ++ obsLog R x) := by
  have hskip := emitLoopP_skip owner oc x R P [] pos 1 w lg (by simpa using hslots)
    hP (by simpa using hR) hsort hobs
  rw [hskip]
  have hsort' : List.Pairwise (· < ·) (keysOf (P ++ R ++ [])) := by
    rw [hslots] at hsort
    simpa using hsort
  have hspec := posAfter_spec pos P R [] hsort' hP (by simpa using hR)
  exact emitLoopP_end 1 w _ owner oc x (posAfter pos R)
    (fun e he => hspec.1 e (by rw [hslots] at he; exact he)) (by omega)

/-- `emitLoop_pure` for any sufficiently large fuel. -/
theorem emitLoop_pureF {α : Type} (x : α) (R P : List (Nat × Body)) (pos : Option Nat)
    (f : Nat) (s : SigSt Body) (inv : List (Nat × α)) (lg : List Nat)
    (hslots : s.m_slots = P ++ R)
    (hP : ∀ e ∈ P, afterPos pos e.1 = false)
    (hR : ∀ e ∈ R, afterPos pos e.1 = true)
    (hsort : List.Pairwise (· < ·) (keysOf s.m_slots))
    (hlog : ∀ e ∈ R, isLogOnly e.2 = true)
    (hf : R.length < f) :
    emitLoop x f s pos inv lg =
      .ok s (inv ++ R.map fun e => (e.1, x)) (lg ++ traceLogs R) := by
  have hf' : f = R.length + (f - R.length) := by omega
  rw [hf']
  have hskip := emitLoop_skip x R P [] pos (f - R.length) s inv lg (by simpa using hslots)
    hP (by simpa using hR) hsort hlog
  rw [hskip]
  have hsort' : List.Pairwise (· < ·) (keysOf (P ++ R ++ [])) := by
    rw [hslots] at hsort
    simpa using hsort
  have hspec := posAfter_spec pos P R [] hsort' hP (by simpa using hR)
  exact emitLoop_end x (f - R.length) s (posAfter pos R) _ _
    (fun e he => hspec.1 e (by rw [hslots] at he; exact he)) (by omega)

/-- `emitLoopP_pure` for any sufficiently large fuel. -/
theorem emitLoopP_pureF {V : Type} [DecidableEq V] (owner : Nat) (oc : Bool) (x : V)
    (R P : List (Nat × PCb)) (pos : Option Nat) (f : Nat) (w : World V) (lg : Log V)
    (hslots : (sigOf (w owner) oc).m_slots = P ++ R)
    (hP : ∀ e ∈ P, afterPos pos e.1 = false)
    (hR : ∀ e ∈ R, afterPos pos e.1 = true)
    (hsort : List.Pairwise (· < ·) (keysOf ((sigOf (w owner) oc).m_slots)))
    (hobs : ∀ e ∈ R, isObs e.2 = true)
    (hf : R.length < f) :
    emitLoopP f w lg owner oc x pos = some (w, lg ++ obsLog R x) := by
  have hf' : f = R.length + (f - R.length) := by omega
  rw [hf']
  have hskip := emitLoopP_skip owner oc x R P [] pos (f - R.length) w lg (by simpa using hslots)
    hP (by simpa using hR) hsort hobs
  rw [hskip]
  have hsort' : List.Pairwise (· < ·) (keysOf (P ++ R ++ [])) := by
    rw [hslots] at hsort
    simpa using hsort
  have hspec := posAfter_spec pos P R [] hsort' hP (by simpa using hR)
  exact emitLoopP_end (f - R.length) w _ owner oc x (posAfter pos R)
    (fun e he => hspec.1 e (by rw [hslots] at he; exact he)) (by omega)

/-! ### Claims about `Property::set` (C4, C5) -/

/-- Claim C4: for every property `p` and value `v` equal (by value equality) to
`p`'s current value, `set` returns immediately with zero notifications: the
world and the observation log are unchanged, so neither the before-change nor
the after-change dispatcher fires and `get` is unchanged. -/
theorem c4_set_equal_noop {V : Type} [DecidableEq V] (fuel : Nat) (w : World V) (lg : Log V)
    (p : Nat) (v : V) (hv : v = (w p).m_value) :
    pset (fuel + 1) w lg p v = some (w, lg) := by
  simp [pset, hv]

/-- Concrete world for witnesses: every property holds `0` and has no
subscribers and no binding. -/
def constWorld : World Nat := fun _ =>
  { m_value := 0
    m_prior_to_change := freshSig
    m_on_change := freshSig
    m_connection := none
    m_connection_id := USIZE - 1 }

theorem c4_witness :
    (0 : Nat) = (constWorld 0).m_value ∧ pset 1 constWorld [] 0 0 = some (constWorld, []) :=
  ⟨rfl, c4_set_equal_noop 0 constWorld [] 0 0 rfl⟩

/-- Claim C5: for every property `p` whose two dispatchers hold only (sorted)
observer subscribers, and every value `v` different from `p`'s current value,
`set` fires the before-change observers exactly once each with the old value,
then stores `v`, then fires the after-change observers exactly once each with
the new value — in that order, both dispatchers or neither, before returning. -/
theorem c5_set_change_fires {V : Type} [DecidableEq V] (f : Nat) (w : World V) (lg : Log V)
    (p : Nat) (v : V) (P Q : List (Nat × PCb))
    (hv : ¬ v = (w p).m_value)
    (hP : (w p).m_prior_to_change.m_slots = P)
    (hQ : (w p).m_on_change.m_slots = Q)
    (hPobs : ∀ e ∈ P, isObs e.2 = true)
    (hQobs : ∀ e ∈ Q, isObs e.2 = true)
    (hPsort : List.Pairwise (· < ·) (keysOf P))
    (hQsort : List.Pairwise (· < ·) (keysOf Q))
    (hfP : P.length < f) (hfQ : Q.length < f) :
    pset (f + 1) w lg p v =
      some (wupdate w p { w p with m_value := v },
        lg ++ obsLog P ((w p).m_value) ++ obsLog Q v) := by
  rw [pset, if_neg hv]
  have hprior := emitLoopP_pureF p false ((w p).m_value) P [] none f w lg
    (by simpa [sigOf] using hP) (by simp) (by simp [afterPos])
    (by simpa [sigOf, hP] using hPsort) hPobs hfP
  simp only [hprior]
  have hup : wupdate w p { w p with m_value := v } p = { w p with m_value := v } :=
    wupdate_same w p _
  have hafter := emitLoopP_pureF p true v Q []
    none f (wupdate w p { w p with m_value := v }) (lg ++ obsLog P ((w p).m_value))
    (by simp [sigOf, hup, hQ]) (by simp) (by simp [afterPos])
    (by simpa [sigOf, hup, hQ] using hQsort) hQobs hfQ
  simpa [hup] using hafter

/-- Concrete world for witnesses: property `0` holds `3` with one observer
(tag 10) on the before-change signal and one (tag 20) on the after-change
signal; all other properties are fresh. -/
def obsWorld : World Nat := fun i =>
  if i = 0 then
    { m_value := 3
      m_prior_to_change := ⟨[(1, PCb.observe 10)], 1⟩
      m_on_change := ⟨[(1, PCb.observe 20)], 1⟩
      m_connection := none
      m_connection_id := USIZE - 1 }
  else
    { m_value := 0
      m_prior_to_change := freshSig
      m_on_change := freshSig
      m_connection := none
      m_connection_id := USIZE - 1 }

theorem c5_witness :
    ¬ (5 : Nat) = (obsWorld 0).m_value ∧
      pset 3 obsWorld [] 0 5 =
        some (wupdate obsWorld 0 { obsWorld 0 with m_value := 5 }, [(10, 3), (20, 5)]) := by
  refine ⟨by decide, ?_⟩
  have h := c5_set_change_fires 2 obsWorld [] 0 5 [(1, PCb.observe 10)] [(1, PCb.observe 20)]
    (by decide) rfl rfl (by decide) (by decide) (by decide) (by decide)
    (by decide) (by decide)
  simpa [obsLog, tagOf] using h

/-! ### Claims about `Signal` sequences (C6, C7, C8) -/

/-- Ids paired with slot bodies, starting at id `m`. -/
def idSlots {β : Type} : Nat → List β → List (Nat × β)
  | _, [] => []
  | m, cb :: rest => (m, cb) :: idSlots (m + 1) rest

theorem length_idSlots {β : Type} (m : Nat) (cbs : List β) :
    (idSlots m cbs).length = cbs.length := by
  induction cbs generalizing m with
  | nil => simp [idSlots]
  | cons cb rest ih => simp [idSlots, ih]

theorem keysOf_idSlots {β : Type} (m : Nat) (cbs : List β) :
    keysOf (idSlots m cbs) = List.range' m cbs.length := by
  induction cbs generalizing m with
  | nil => simp [idSlots, keysOf]
  | cons cb rest ih =>
    have hr := ih (m + 1)
    simp only [keysOf] at hr
    simp only [idSlots, keysOf, List.map_cons, List.length_cons, List.range'_succ]
    rw [hr]

theorem snd_mem_of_mem_idSlots {β : Type} (m : Nat) (cbs : List β) (e : Nat × β)
    (h : e ∈ idSlots m cbs) : e.2 ∈ cbs := by
  induction cbs generalizing m with
  | nil => simp [idSlots] at h
  | cons cb rest ih =>
    simp only [idSlots, List.mem_cons] at h
    rcases h with h | h
    · subst h; simp
    · exact List.mem_cons_of_mem _ (ih (m + 1) h)

/-- Connecting a block of callbacks to a signal whose keys are bounded by its
counter appends them at the end with consecutive fresh ids. -/
theorem connectAll_append (cbs : List Body) :
    ∀ (s : SigSt Body),
      (∀ k ∈ keysOf s.m_slots, k ≤ s.m_id) →
      s.m_id + cbs.length < USIZE →
      connectAll cbs s =
        ({ m_slots := s.m_slots ++ idSlots (s.m_id + 1) cbs, m_id := s.m_id + cbs.length },
          List.range' (s.m_id + 1) cbs.length) := by
  induction cbs with
  | nil =>
    intro s _ _
    simp [connectAll, idSlots]
  | cons cb rest ih =>
    intro s hk hn
    have hlen : s.m_id + (cb :: rest).length = s.m_id + rest.length + 1 := by
      simp [List.length_cons]; omega
    have hid : (s.m_id + 1) % USIZE = s.m_id + 1 := Nat.mod_eq_of_lt (by rw [hlen] at hn; omega)
    have hins : insertSorted (s.m_id + 1) cb s.m_slots = s.m_slots ++ [(s.m_id + 1, cb)] :=
      insertSorted_append _ _ _ (fun k0 hk0 => by have := hk k0 hk0; omega)
    have hk' : ∀ k ∈ keysOf (s.m_slots ++ [(s.m_id + 1, cb)]), k ≤ s.m_id + 1 := by
      intro k hk0
      rw [keysOf_append] at hk0
      rcases List.mem_append.mp hk0 with hk1 | hk1
      · have := hk k hk1; omega
      · simp [keysOf] at hk1; omega
    have hn' : s.m_id + 1 + rest.length < USIZE := by
      rw [hlen] at hn; omega
    have hrec := ih ⟨s.m_slots ++ [(s.m_id + 1, cb)], s.m_id + 1⟩ hk' hn'
    dsimp only at hrec
    simp only [connectAll, connectS, hid, hins, hrec]
    rw [Prod.mk.injEq, SigSt.mk.injEq]
    refine ⟨⟨?_, ?_⟩, ?_⟩
    · simp [idSlots, List.append_assoc]
    · simp only [List.length_cons]; omega
    · simp only [List.length_cons, List.range'_succ]

/-- Claim C6: connecting callbacks `c1..cn` (with no intervening disconnects)
to a fresh dispatcher returns the ids `1..n` in ascending order, and a
subsequent `emit x` in which no callback mutates the subscriber set runs to
completion with the subscriber set unchanged, invoking each `ci` exactly once
with argument `x`, in ascending connection-id order. -/
theorem c6_emit_order {α : Type} (x : α) (f : Nat) (cbs : List Body)
    (hpure : ∀ cb ∈ cbs, isLogOnly cb = true)
    (hn : cbs.length < USIZE)
    (hf : cbs.length < f) :
    (connectAll cbs freshSig).2 = List.range' 1 cbs.length ∧
      emitSig x f (connectAll cbs freshSig).1 =
        .ok (connectAll cbs freshSig).1
          ((List.range' 1 cbs.length).map fun i => (i, x))
          (traceLogs (idSlots 1 cbs)) := by
  have hca : connectAll cbs freshSig =
      (⟨idSlots 1 cbs, cbs.length⟩, List.range' 1 cbs.length) := by
    have h := connectAll_append cbs freshSig (by simp [freshSig, keysOf])
      (by simpa [freshSig] using hn)
    simpa [freshSig] using h
  rw [hca]
  refine ⟨rfl, ?_⟩
  have hpure' : ∀ e ∈ idSlots 1 cbs, isLogOnly e.2 = true := fun e he =>
    hpure e.2 (snd_mem_of_mem_idSlots 1 cbs e he)
  have hsort : List.Pairwise (· < ·) (keysOf (idSlots 1 cbs)) := by
    rw [keysOf_idSlots]
    exact List.pairwise_lt_range' 1 cbs.length
  have hrun := emitLoop_pureF x (idSlots 1 cbs) [] none f
    (⟨idSlots 1 cbs, cbs.length⟩ : SigSt Body) [] []
    (by simp) (by simp) (fun e he => by simp [afterPos])
    (by simpa using hsort) hpure' (by rw [length_idSlots]; exact hf)
  rw [emitSig, hrun]
  have hmap : ((idSlots 1 cbs).map fun e => (e.1, x)) =
      (List.range' 1 cbs.length).map fun i => (i, x) := by
    rw [← keysOf_idSlots 1 cbs]
    simp [keysOf, List.map_map, Function.comp]
  rw [hmap]
  simp

theorem c6_witness :
    ((∀ cb ∈ [[Act.log 7], [Act.log 8]], isLogOnly cb = true) ∧
        ([[Act.log 7], [Act.log 8]] : List Body).length < USIZE ∧
        ([[Act.log 7], [Act.log 8]] : List Body).length < 3) ∧
      (connectAll [[Act.log 7], [Act.log 8]] freshSig).2 = List.range' 1 2 ∧
        emitSig (5 : Nat) 3 (connectAll [[Act.log 7], [Act.log 8]] freshSig).1 =
          .ok (connectAll [[Act.log 7], [Act.log 8]] freshSig).1
            ((List.range' 1 2).map fun i => (i, 5))
            (traceLogs (idSlots 1 [[Act.log 7], [Act.log 8]])) := by
  refine ⟨⟨by decide, by decide, by decide⟩, ?_⟩
  exact c6_emit_order 5 3 [[Act.log 7], [Act.log 8]] (by decide) (by decide) (by decide)

/-- The ids returned by the connects in an operation sequence, while the
counter does not wrap: consecutive values continuing from the current
counter.  Disconnects never touch the counter. -/
theorem runOps_ids (ops : List SOp) :
    ∀ (s : SigSt Body), s.m_id + countConnects ops < USIZE →
      (runOps ops s).2 = List.range' (s.m_id + 1) (countConnects ops) ∧
        (runOps ops s).1.m_id = s.m_id + countConnects ops := by
  induction ops with
  | nil =>
    intro s _
    simp [runOps, countConnects]
  | cons op rest ih =>
    intro s hn
    cases op with
    | connect cb =>
      have hcc : countConnects (SOp.connect cb :: rest) = countConnects rest + 1 := rfl
      rw [hcc] at hn
      have hid : (s.m_id + 1) % USIZE = s.m_id + 1 := Nat.mod_eq_of_lt (by omega)
      have hrec := ih ⟨insertSorted (s.m_id + 1) cb s.m_slots, s.m_id + 1⟩ (by dsimp only; omega)
      dsimp only at hrec
      simp only [runOps, connectS, hid, hcc]
      refine ⟨?_, ?_⟩
      · rw [hrec.1, List.range'_succ]
      · rw [hrec.2]; omega
    | disconnect i =>
      have hcc : countConnects (SOp.disconnect i :: rest) = countConnects rest := rfl
      rw [hcc] at hn
      have hrec := ih ⟨eraseKey i s.m_slots, s.m_id⟩ (by dsimp only; omega)
      dsimp only at hrec
      simp only [runOps, disconnectSig, hcc]
      exact hrec
    | disconnectAll =>
      have hcc : countConnects (SOp.disconnectAll :: rest) = countConnects rest := rfl
      rw [hcc] at hn
      have hrec := ih ⟨[], s.m_id⟩ (by dsimp only; omega)
      dsimp only at hrec
      simp only [runOps, disconnectAllSig, hcc]
      exact hrec

/-- Claim C7 (amended): over any sequence of `connect`, `disconnect` and
`disconnect_all` operations on a fresh dispatcher containing fewer than
`2 ^ 64` connects, each id returned by `connect` is strictly greater than
every previously returned id (hence no id is ever reused). -/
theorem c7_amended (ops : List SOp) (h : countConnects ops < USIZE) :
    List.Pairwise (· < ·) (runOps ops freshSig).2 := by
  have hids := (runOps_ids ops freshSig (by simpa [freshSig] using h)).1
  rw [hids]
  exact List.pairwise_lt_range' _ _

theorem c7_witness :
    countConnects [SOp.connect [], SOp.disconnect 1, SOp.connect []] < USIZE ∧
      List.Pairwise (· < ·)
        (runOps [SOp.connect [], SOp.disconnect 1, SOp.connect []] freshSig).2 :=
  ⟨by decide, c7_amended [SOp.connect [], SOp.disconnect 1, SOp.connect []] (by decide)⟩

/-- Splitting a run of operations at an append. -/
theorem runOps_append (l₁ l₂ : List SOp) :
    ∀ (s : SigSt Body),
      runOps (l₁ ++ l₂) s =
        ((runOps l₂ (runOps l₁ s).1).1, (runOps l₁ s).2 ++ (runOps l₂ (runOps l₁ s).1).2) := by
  induction l₁ with
  | nil =>
    intro s
    simp [runOps]
  | cons op rest ih =>
    intro s
    cases op with
    | connect cb =>
      simp only [List.cons_append, runOps, List.append_eq, ih, List.append_assoc]
    | disconnect i =>
      simp only [List.cons_append, runOps, List.append_eq, ih]
    | disconnectAll =>
      simp only [List.cons_append, runOps, List.append_eq, ih]

/-- Counting connects over `replicate`. -/
theorem countConnects_replicate (n : Nat) (cb : Body) :
    countConnects (List.replicate n (SOp.connect cb)) = n := by
  induction n with
  | zero => simp [countConnects]
  | succ n ih => simp [List.replicate_succ, countConnects, ih]

/-- Claim C7, counterexample: after `2 ^ 64` connects the `size_t` counter has
wrapped to `0`, so the ids returned by `connect` on a fresh dispatcher are no
longer strictly increasing (the last returned id, `0`, is smaller than the
first, `1`). -/
theorem c7_counterexample :
    ¬ List.Pairwise (· < ·)
      (runOps (List.replicate USIZE (SOp.connect [])) freshSig).2 := by
  intro hpw
  have hsplit : List.replicate USIZE (SOp.connect ([] : Body)) =
      List.replicate (USIZE - 1) (SOp.connect []) ++ [SOp.connect []] := by
    have h1 : USIZE = (USIZE - 1) + 1 := by
      have : 0 < USIZE := by norm_num [USIZE]
      omega
    nth_rewrite 1 [h1]
    rw [List.replicate_succ']
  rw [hsplit, runOps_append] at hpw
  have h1 := runOps_ids (List.replicate (USIZE - 1) (SOp.connect [])) freshSig
    (by rw [countConnects_replicate]
        rw [show freshSig.m_id = 0 from rfl, Nat.zero_add]
        have : 0 < USIZE := by norm_num [USIZE]
        omega)
  rw [countConnects_replicate] at h1
  have hids1 : (runOps (List.replicate (USIZE - 1) (SOp.connect [])) freshSig).2 =
      List.range' 1 (USIZE - 1) := by
    have h := h1.1
    rw [show freshSig.m_id + 1 = 1 from rfl] at h
    exact h
  have hm : (runOps (List.replicate (USIZE - 1) (SOp.connect [])) freshSig).1.m_id =
      USIZE - 1 := by
    have h := h1.2
    rw [show freshSig.m_id = 0 from rfl, Nat.zero_add] at h
    exact h
  have hlast : ∀ (s1 : SigSt Body), s1.m_id = USIZE - 1 →
      (runOps [SOp.connect ([] : Body)] s1).2 = [0] := by
    intro s1 hs1
    simp only [runOps, connectS, hs1]
    have h0 : 0 < USIZE := by norm_num [USIZE]
    have h2 : USIZE - 1 + 1 = USIZE := by omega
    rw [h2, Nat.mod_self]
  rw [hids1, hlast _ hm] at hpw
  have h2 := (List.pairwise_append.mp hpw).2.2 1
    (by
      rw [List.mem_range'_1]
      constructor
      · omega
      · have : 2 ≤ USIZE := by norm_num [USIZE]
        omega)
    0 (by simp)
  omega

/-- Key membership after `erase` on a strictly sorted association list:
exactly the old keys other than the erased one. -/
theorem mem_keysOf_eraseKey {β : Type} (id : Nat) (l : List (Nat × β))
    (hsort : List.Pairwise (· < ·) (keysOf l)) (k : Nat) :
    k ∈ keysOf (eraseKey id l) ↔ k ∈ keysOf l ∧ k ≠ id := by
  induction l with
  | nil => simp [eraseKey, keysOf]
  | cons a l ih =>
    obtain ⟨k', v'⟩ := a
    simp only [keysOf, List.map_cons, List.pairwise_cons] at hsort
    have ihl := ih (by simpa [keysOf] using hsort.2)
    by_cases hid : id = k'
    · subst hid
      simp only [eraseKey, if_pos rfl]
      constructor
      · intro hk
        have hk' : k ∈ List.map Prod.fst l := by simpa [keysOf] using hk
        have hlt : id < k := hsort.1 k hk'
        exact ⟨by simp only [keysOf, List.map_cons, List.mem_cons]; exact Or.inr hk',
          by omega⟩
      · rintro ⟨hk, hne⟩
        simp only [keysOf, List.map_cons, List.mem_cons] at hk
        rcases hk with hk | hk
        · exact absurd hk hne
        · simpa [keysOf] using hk
    · simp only [eraseKey, if_neg hid, keysOf, List.map_cons, List.mem_cons]
      simp only [keysOf] at ihl
      rw [ihl]
      have hkk : k = k' → ¬ k = id := fun h1 h2 => hid (by rw [← h2, h1])
      constructor
      · rintro (h | ⟨h, hne⟩)
        · exact ⟨Or.inl h, hkk h⟩
        · exact ⟨Or.inr h, hne⟩
      · rintro ⟨h | h, hne⟩
        · exact Or.inl h
        · exact Or.inr ⟨h, hne⟩

/-- Claim C8: `disconnect(id)` removes exactly the subscriber with that id
when present (a later `emit` over the — observation-only — survivors invokes
exactly the remaining subscribers); disconnecting an unknown or
already-removed id is a silent no-op leaving the subscriber set unchanged;
in particular a second disconnect of the same id changes nothing. -/
theorem c8_disconnect {α : Type} (x : α) (f : Nat) (s : SigSt Body) (id : Nat)
    (hsort : List.Pairwise (· < ·) (keysOf s.m_slots))
    (hpure : ∀ e ∈ s.m_slots, isLogOnly e.2 = true)
    (hf : s.m_slots.length < f) :
    (∀ k, k ∈ keysOf (disconnectSig id s).m_slots ↔ k ∈ keysOf s.m_slots ∧ k ≠ id) ∧
      (id ∉ keysOf s.m_slots → disconnectSig id s = s) ∧
      disconnectSig id (disconnectSig id s) = disconnectSig id s ∧
      emitSig x f (disconnectSig id s) =
        .ok (disconnectSig id s)
          ((eraseKey id s.m_slots).map fun e => (e.1, x))
          (traceLogs (eraseKey id s.m_slots)) := by
  refine ⟨mem_keysOf_eraseKey id s.m_slots hsort, ?_, ?_, ?_⟩
  · intro hid
    simp [disconnectSig, eraseKey_of_not_mem id s.m_slots hid]
  · have hid2 : id ∉ keysOf (eraseKey id s.m_slots) := by
      rw [mem_keysOf_eraseKey id s.m_slots hsort id]
      simp
    simp [disconnectSig, eraseKey_of_not_mem id _ hid2]
  · have hsub := eraseKey_sublist id s.m_slots
    have hsort' : List.Pairwise (· < ·) (keysOf (eraseKey id s.m_slots)) :=
      List.Pairwise.sublist (hsub.map Prod.fst) hsort
    have hrun := emitLoop_pureF x (eraseKey id s.m_slots) [] none f
      (disconnectSig id s) [] []
      (by simp [disconnectSig]) (by simp) (fun e he => rfl)
      (by simpa [disconnectSig] using hsort')
      (fun e he => hpure e (mem_of_mem_eraseKey he))
      (lt_of_le_of_lt hsub.length_le hf)
    rw [emitSig, hrun]
    simp

/-- A concrete two-subscriber dispatcher for the C8 witness. -/
def c8sig : SigSt Body := ⟨[(1, [Act.log 4]), (2, [Act.log 6])], 2⟩

theorem c8_witness :
    (List.Pairwise (· < ·) (keysOf c8sig.m_slots) ∧
        (∀ e ∈ c8sig.m_slots, isLogOnly e.2 = true) ∧ c8sig.m_slots.length < 3) ∧
      ((∀ k, k ∈ keysOf (disconnectSig 1 c8sig).m_slots ↔
          k ∈ keysOf c8sig.m_slots ∧ k ≠ 1) ∧
        (1 ∉ keysOf c8sig.m_slots → disconnectSig 1 c8sig = c8sig) ∧
        disconnectSig 1 (disconnectSig 1 c8sig) = disconnectSig 1 c8sig ∧
        emitSig (0 : Nat) 3 (disconnectSig 1 c8sig) =
          .ok (disconnectSig 1 c8sig)
            ((eraseKey 1 c8sig.m_slots).map fun e => (e.1, 0))
            (traceLogs (eraseKey 1 c8sig.m_slots))) :=
  ⟨⟨by decide, by decide, by decide⟩,
    c8_disconnect 0 3 c8sig 1 (by decide) (by decide) (by decide)⟩

/-! ### Claims about mutation during `emit` (C1, C2) -/

/-- Claim C1, counterexample: a dispatcher whose only callback connects a new
callback during `emit`.  The newly connected callback (id 2) IS invoked during
the same `emit` call — the loop iterates the live map, not a snapshot taken at
emit-entry — contradicting the claim that it is not invoked. -/
theorem c1_counterexample :
    emitSig (0 : Nat) 3 ⟨[(1, [Act.connect [Act.log 99]])], 1⟩ =
      .ok ⟨[(1, [Act.connect [Act.log 99]]), (2, [Act.log 99])], 2⟩
        [(1, 0), (2, 0)] [99] := rfl

/-- Appending one larger key on the right keeps an association list strictly
sorted. -/
theorem pairwise_append_big {β : Type} (l : List (Nat × β)) (k : Nat) (v : β)
    (hsort : List.Pairwise (· < ·) (keysOf l))
    (hbig : ∀ k0 ∈ keysOf l, k0 < k) :
    List.Pairwise (· < ·) (keysOf (l ++ [(k, v)])) := by
  rw [keysOf_append]
  refine List.pairwise_append.mpr ⟨hsort, by simp [keysOf], ?_⟩
  intro a ha b hb
  simp only [keysOf, List.map_cons, List.map_nil, List.mem_singleton] at hb
  subst hb
  exact hbig a ha

/-- Claim C1 (amended): the set of callbacks invoked by `emit` is NOT fixed at
emit-entry.  If, in a dispatcher of otherwise observation-only callbacks, the
callback at key `k` connects a new (observation-only) callback during
`emit x`, the new callback receives the id `m_id + 1`, strictly greater than
every existing id, and — the loop iterating the live map in ascending key
order — it IS invoked during that same emit with argument `x`, after the
remaining old callbacks. -/
theorem c1_amended {α : Type} (x : α) (s : SigSt Body) (A B : List (Nat × Body)) (k : Nat)
    (nb : Body)
    (hslots : s.m_slots = A ++ (k, [Act.connect nb]) :: B)
    (hA : ∀ e ∈ A, isLogOnly e.2 = true)
    (hB : ∀ e ∈ B, isLogOnly e.2 = true)
    (hnb : isLogOnly nb = true)
    (hsort : List.Pairwise (· < ·) (keysOf s.m_slots))
    (hbound : ∀ k0 ∈ keysOf s.m_slots, k0 ≤ s.m_id)
    (hwrap : s.m_id + 1 < USIZE) :
    emitSig x (A.length + B.length + 3) s =
      .ok ⟨(A ++ (k, [Act.connect nb]) :: B) ++ [(s.m_id + 1, nb)], s.m_id + 1⟩
        ((A.map fun e => (e.1, x)) ++ [(k, x)] ++
          ((B ++ [(s.m_id + 1, nb)]).map fun e => (e.1, x)))
        (traceLogs A ++ traceLogs (B ++ [(s.m_id + 1, nb)])) := by
  have hfuel : A.length + B.length + 3 = A.length + (B.length + 3) := by omega
  rw [emitSig, hfuel]
  have hskip := emitLoop_skip x A [] ((k, [Act.connect nb]) :: B) none (B.length + 3) s [] []
    (by simpa using hslots) (by simp) (fun e he => rfl) hsort hA
  rw [hskip]
  have hsort0 : List.Pairwise (· < ·) (keysOf ([] ++ A ++ (k, [Act.connect nb]) :: B)) := by
    rw [hslots] at hsort
    simpa using hsort
  have hspec := posAfter_spec none [] A ((k, [Act.connect nb]) :: B) hsort0
    (by simp) (fun e he => rfl)
  have hnext : nextSlot (posAfter none A) s.m_slots = some (k, [Act.connect nb]) := by
    rw [hslots, nextSlot, find?_skip _ A _ (fun e he => hspec.1 e (by simpa using he))]
    exact List.find?_cons_of_pos _ (hspec.2 (k, [Act.connect nb]) (by simp))
  have hconn : connectS nb s = (s.m_id + 1,
      ⟨s.m_slots ++ [(s.m_id + 1, nb)], s.m_id + 1⟩) := by
    simp only [connectS]
    rw [Nat.mod_eq_of_lt hwrap,
      insertSorted_append _ _ _ (fun k0 hk0 => by have := hbound k0 hk0; omega)]
  have hstep : B.length + 3 = (B.length + 2) + 1 := by omega
  rw [hstep, emitLoop, hnext]
  simp only [runActs, hconn]
  have hkmem : k ∈ keysOf s.m_slots := by
    rw [hslots, keysOf_append]
    simp [keysOf]
  have hkm : k ≤ s.m_id := hbound k hkmem
  have hsort2 : List.Pairwise (· < ·) (keysOf (s.m_slots ++ [(s.m_id + 1, nb)])) :=
    pairwise_append_big s.m_slots (s.m_id + 1) nb hsort
      (fun k0 hk0 => by have := hbound k0 hk0; omega)
  have hAk : ∀ e ∈ A, e.1 < k := fun e he => by
    have hs : List.Pairwise (· < ·) (keysOf (A ++ (k, [Act.connect nb]) :: B)) := by
      rw [hslots] at hsort; exact hsort
    exact @keys_lt_of_pairwise Body A ((k, [Act.connect nb]) :: B) e
      (k, [Act.connect nb]) hs he (by simp)
  have hkB : ∀ e ∈ B, k < e.1 := fun e he => by
    have hs : List.Pairwise (· < ·)
        (keysOf ((A ++ [(k, [Act.connect nb])]) ++ B)) := by
      rw [hslots] at hsort
      simpa [List.append_assoc] using hsort
    exact @keys_lt_of_pairwise Body (A ++ [(k, [Act.connect nb])]) B
      (k, [Act.connect nb]) e hs (by simp) he
  have hpure := emitLoop_pureF x (B ++ [(s.m_id + 1, nb)]) (A ++ [(k, [Act.connect nb])])
    (some k) (B.length + 2)
    (⟨s.m_slots ++ [(s.m_id + 1, nb)], s.m_id + 1⟩ : SigSt Body)
    (([] ++ A.map fun e => (e.1, x)) ++ [(k, x)]) ([] ++ traceLogs A)
    (by rw [hslots]; simp)
    (by intro e he
        rcases List.mem_append.mp he with h1 | h1
        · have := hAk e h1
          simp [afterPos]; omega
        · simp only [List.mem_singleton] at h1
          subst h1
          simp [afterPos])
    (by intro e he
        rcases List.mem_append.mp he with h1 | h1
        · have := hkB e h1
          simp [afterPos]; omega
        · simp only [List.mem_singleton] at h1
          subst h1
          simp [afterPos]; omega)
    (by simpa using hsort2)
    (by intro e he
        rcases List.mem_append.mp he with h1 | h1
        · exact hB e h1
        · simp only [List.mem_singleton] at h1
          subst h1
          exact hnb)
    (by simp)
  rw [hpure, hslots]
  simp [List.append_assoc, traceLogs]

theorem c1_witness :
    ((⟨[(1, [Act.connect [Act.log 99]])], 1⟩ : SigSt Body).m_slots =
        [] ++ (1, [Act.connect [Act.log 99]]) :: [] ∧
      (∀ e ∈ ([] : List (Nat × Body)), isLogOnly e.2 = true) ∧
      isLogOnly [Act.log 99] = true ∧
      List.Pairwise (· < ·)
        (keysOf (⟨[(1, [Act.connect [Act.log 99]])], 1⟩ : SigSt Body).m_slots) ∧
      (∀ k0 ∈ keysOf (⟨[(1, [Act.connect [Act.log 99]])], 1⟩ : SigSt Body).m_slots,
        k0 ≤ (⟨[(1, [Act.connect [Act.log 99]])], 1⟩ : SigSt Body).m_id) ∧
      (⟨[(1, [Act.connect [Act.log 99]])], 1⟩ : SigSt Body).m_id + 1 < USIZE) ∧
      emitSig (0 : Nat) 3 ⟨[(1, [Act.connect [Act.log 99]])], 1⟩ =
        .ok ⟨[(1, [Act.connect [Act.log 99]]), (2, [Act.log 99])], 2⟩
          [(1, 0), (2, 0)] [99] :=
  ⟨⟨rfl, by simp, by decide, by decide, by decide, by decide⟩,
    c1_amended 0 ⟨[(1, [Act.connect [Act.log 99]])], 1⟩ [] [] 1 [Act.log 99]
      rfl (by simp) (by simp) (by decide) (by decide) (by decide) (by decide)⟩

/-- Claim C2, counterexample: a dispatcher whose first callback disconnects
itself during `emit`.  The loop's hidden iterator rests on the erased map
node, so the iteration is invalidated (undefined behaviour in the C++ code):
the emit does not complete safely and the second callback is never reached. -/
theorem c2_counterexample :
    emitSig (0 : Nat) 3 ⟨[(1, [Act.disconnect 1]), (2, [Act.log 7])], 2⟩ =
      .invalidated [(1, 0)] [] := rfl

/-- Erasing a key found in the first block of an append. -/
theorem eraseKey_append_of_mem_left {β : Type} (k : Nat) (l₁ l₂ : List (Nat × β))
    (h : k ∈ keysOf l₁) : eraseKey k (l₁ ++ l₂) = eraseKey k l₁ ++ l₂ := by
  induction l₁ with
  | nil => simp [keysOf] at h
  | cons a l ih =>
    obtain ⟨k', v'⟩ := a
    by_cases hk : k = k'
    · simp [eraseKey, hk]
    · simp only [keysOf, List.map_cons, List.mem_cons] at h
      rcases h with h | h
      · exact absurd h hk
      · simp [eraseKey, hk, ih (by simpa [keysOf] using h)]

/-- Claim C2 (amended): if a callback, during `emit`, disconnects a subscriber
OTHER than itself, the emit completes safely: the disconnected entry is
removed, a not-yet-reached disconnected entry is skipped, an already-invoked
one stays invoked, and iteration over the remaining subscribers proceeds
unharmed.  (Self-disconnection, by contrast, invalidates the iteration — see
the counterexample.) -/
theorem c2_amended {α : Type} (x : α) (s : SigSt Body) (A B : List (Nat × Body)) (k j : Nat)
    (hslots : s.m_slots = A ++ (k, [Act.disconnect j]) :: B)
    (hjk : j ≠ k)
    (hA : ∀ e ∈ A, isLogOnly e.2 = true)
    (hB : ∀ e ∈ B, isLogOnly e.2 = true)
    (hsort : List.Pairwise (· < ·) (keysOf s.m_slots)) :
    emitSig x (A.length + B.length + 3) s =
      .ok (disconnectSig j s)
        ((A.map fun e => (e.1, x)) ++ [(k, x)] ++
          ((eraseKey j B).map fun e => (e.1, x)))
        (traceLogs A ++ traceLogs (eraseKey j B)) := by
  have hfuel : A.length + B.length + 3 = A.length + (B.length + 3) := by omega
  rw [emitSig, hfuel]
  have hskip := emitLoop_skip x A [] ((k, [Act.disconnect j]) :: B) none (B.length + 3) s [] []
    (by simpa using hslots) (by simp) (fun e he => rfl) hsort hA
  rw [hskip]
  have hsort0 : List.Pairwise (· < ·) (keysOf ([] ++ A ++ (k, [Act.disconnect j]) :: B)) := by
    rw [hslots] at hsort
    simpa using hsort
  have hspec := posAfter_spec none [] A ((k, [Act.disconnect j]) :: B) hsort0
    (by simp) (fun e he => rfl)
  have hnext : nextSlot (posAfter none A) s.m_slots = some (k, [Act.disconnect j]) := by
    rw [hslots, nextSlot, find?_skip _ A _ (fun e he => hspec.1 e (by simpa using he))]
    exact List.find?_cons_of_pos _ (hspec.2 (k, [Act.disconnect j]) (by simp))
  have hstep : B.length + 3 = (B.length + 2) + 1 := by omega
  rw [hstep, emitLoop, hnext]
  have hrun : runActs [Act.disconnect j] s ([] ++ traceLogs A) k false =
      (disconnectSig j s, [] ++ traceLogs A, false) := by
    simp only [runActs]
    rw [decide_eq_false hjk]
    simp
  simp only [hrun]
  have hAk : ∀ e ∈ A, e.1 < k := fun e he => by
    have hs : List.Pairwise (· < ·) (keysOf (A ++ (k, [Act.disconnect j]) :: B)) := by
      rw [hslots] at hsort; exact hsort
    exact @keys_lt_of_pairwise Body A ((k, [Act.disconnect j]) :: B) e
      (k, [Act.disconnect j]) hs he (by simp)
  have hkB : ∀ e ∈ B, k < e.1 := fun e he => by
    have hs : List.Pairwise (· < ·)
        (keysOf ((A ++ [(k, [Act.disconnect j])]) ++ B)) := by
      rw [hslots] at hsort
      simpa [List.append_assoc] using hsort
    exact @keys_lt_of_pairwise Body (A ++ [(k, [Act.disconnect j])]) B
      (k, [Act.disconnect j]) e hs (by simp) he
  have hsortD : List.Pairwise (· < ·) (keysOf (disconnectSig j s).m_slots) := by
    have hsub := (eraseKey_sublist j s.m_slots).map Prod.fst
    exact List.Pairwise.sublist hsub hsort
  by_cases hjA : j ∈ keysOf A
  · have hjB : j ∉ keysOf B := by
      intro hjB
      obtain ⟨ea, hea, heak⟩ := List.mem_map.mp hjA
      obtain ⟨eb, heb, hebk⟩ := List.mem_map.mp hjB
      have hs : List.Pairwise (· < ·)
          (keysOf ((A ++ [(k, [Act.disconnect j])]) ++ B)) := by
        rw [hslots] at hsort
        simpa [List.append_assoc] using hsort
      have := @keys_lt_of_pairwise Body (A ++ [(k, [Act.disconnect j])]) B ea eb hs
        (by simp [hea]) heb
      omega
    have hdec : (disconnectSig j s).m_slots =
        (eraseKey j A ++ [(k, [Act.disconnect j])]) ++ B := by
      show eraseKey j s.m_slots = _
      rw [hslots, eraseKey_append_of_mem_left j A _ hjA]
      simp
    have hpure := emitLoop_pureF x B (eraseKey j A ++ [(k, [Act.disconnect j])])
      (some k) (B.length + 2) (disconnectSig j s)
      (([] ++ A.map fun e => (e.1, x)) ++ [(k, x)]) ([] ++ traceLogs A)
      hdec
      (by intro e he
          rcases List.mem_append.mp he with h1 | h1
          · have := hAk e (mem_of_mem_eraseKey h1)
            simp [afterPos]; omega
          · simp only [List.mem_singleton] at h1
            subst h1
            simp [afterPos])
      (fun e he => by have := hkB e he; simp [afterPos]; omega)
      (by rw [hdec] at hsortD ⊢; exact hsortD)
      hB (by omega)
    rw [hpure]
    rw [eraseKey_of_not_mem j B hjB]
    simp [List.append_assoc]
  · have hdec : (disconnectSig j s).m_slots =
        (A ++ [(k, [Act.disconnect j])]) ++ eraseKey j B := by
      show eraseKey j s.m_slots = _
      rw [hslots, eraseKey_append_of_not_mem_left j A _ hjA]
      simp [eraseKey, hjk]
    have hpure := emitLoop_pureF x (eraseKey j B) (A ++ [(k, [Act.disconnect j])])
      (some k) (B.length + 2) (disconnectSig j s)
      (([] ++ A.map fun e => (e.1, x)) ++ [(k, x)]) ([] ++ traceLogs A)
      hdec
      (by intro e he
          rcases List.mem_append.mp he with h1 | h1
          · have := hAk e h1
            simp [afterPos]; omega
          · simp only [List.mem_singleton] at h1
            subst h1
            simp [afterPos])
      (fun e he => by
        have := hkB e (mem_of_mem_eraseKey he)
        simp [afterPos]; omega)
      (by rw [hdec] at hsortD ⊢; exact hsortD)
      (fun e he => hB e (mem_of_mem_eraseKey he))
      (by have := (eraseKey_sublist j B).length_le; omega)
    rw [hpure]
    simp [List.append_assoc]

theorem c2_witness :
    ((⟨[(1, [Act.disconnect 2]), (2, [Act.log 7]), (3, [Act.log 8])], 3⟩ :
          SigSt Body).m_slots =
        [] ++ (1, [Act.disconnect 2]) :: [(2, [Act.log 7]), (3, [Act.log 8])] ∧
      (2 : Nat) ≠ 1 ∧
      List.Pairwise (· < ·)
        (keysOf (⟨[(1, [Act.disconnect 2]), (2, [Act.log 7]), (3, [Act.log 8])], 3⟩ :
          SigSt Body).m_slots)) ∧
      emitSig (0 : Nat) 5 ⟨[(1, [Act.disconnect 2]), (2, [Act.log 7]), (3, [Act.log 8])], 3⟩ =
        .ok ⟨[(1, [Act.disconnect 2]), (3, [Act.log 8])], 3⟩ [(1, 0), (3, 0)] [8] :=
  ⟨⟨rfl, by decide, by decide⟩,
    c2_amended 0 ⟨[(1, [Act.disconnect 2]), (2, [Act.log 7]), (3, [Act.log 8])], 3⟩
      [] [(2, [Act.log 7]), (3, [Act.log 8])] 1 2
      rfl (by decide) (by simp) (by decide) (by decide)⟩

/-! ### Further `Property` helpers (for the binding claims) -/

/-- `Property::set` with an unchanged value: no notification, no state change. -/
theorem pset_noop {V : Type} [DecidableEq V] (f : Nat) (w : World V) (lg : Log V)
    (p : Nat) (v : V) (hv : v = (w p).m_value) :
    pset (f + 1) w lg p v = some (w, lg) := by
  simp [pset, hv]

/-- `Property::set` with a changed value over observer-only dispatchers:
fires the before-change observers with the old value, stores, fires the
after-change observers with the new value. -/
theorem pset_run {V : Type} [DecidableEq V] (f : Nat) (w : World V) (lg : Log V)
    (p : Nat) (v : V) (P Q : List (Nat × PCb))
    (hv : ¬ v = (w p).m_value)
    (hP : (w p).m_prior_to_change.m_slots = P)
    (hQ : (w p).m_on_change.m_slots = Q)
    (hPobs : ∀ e ∈ P, isObs e.2 = true)
    (hQobs : ∀ e ∈ Q, isObs e.2 = true)
    (hPsort : List.Pairwise (· < ·) (keysOf P))
    (hQsort : List.Pairwise (· < ·) (keysOf Q))
    (hfP : P.length < f) (hfQ : Q.length < f) :
    pset (f + 1) w lg p v =
      some (wupdate w p { w p with m_value := v },
        lg ++ obsLog P ((w p).m_value) ++ obsLog Q v) := by
  rw [pset, if_neg hv]
  have hprior := emitLoopP_pureF p false ((w p).m_value) P [] none f w lg
    (by simpa [sigOf] using hP) (by simp) (by simp [afterPos])
    (by simpa [sigOf, hP] using hPsort) hPobs hfP
  simp only [hprior]
  have hup : wupdate w p { w p with m_value := v } p = { w p with m_value := v } :=
    wupdate_same w p _
  have hafter := emitLoopP_pureF p true v Q []
    none f (wupdate w p { w p with m_value := v }) (lg ++ obsLog P ((w p).m_value))
    (by simp [sigOf, hup, hQ]) (by simp) (by simp [afterPos])
    (by simpa [sigOf, hup, hQ] using hQsort) hQobs hfQ
  simpa [hup] using hafter

/-- One step of the on-change emit of a property whose only subscriber is a
binding forwarder: run the inner `set` on the forwarding target, then — the
target being a different property, so the slot map is unchanged — finish. -/
theorem emit_forward_only {V : Type} [DecidableEq V] (f : Nat) (w : World V) (lg : Log V)
    (a b sid : Nat) (x : V)
    (hslots : (w b).m_on_change.m_slots = [(sid, PCb.forward a)])
    (w' : World V) (lg' : Log V)
    (hinner : pset f w lg a x = some (w', lg'))
    (hpres : (w' b).m_on_change.m_slots = [(sid, PCb.forward a)])
    (hf : 0 < f) :
    emitLoopP (f + 1) w lg b true x none = some (w', lg') := by
  have hnext : nextSlot none (sigOf (w b) true).m_slots = some (sid, PCb.forward a) := by
    simp [sigOf, hslots, nextSlot, afterPos]
  rw [emitLoopP, hnext]
  simp only [hinner]
  exact emitLoopP_end f w' lg' b true x (some sid)
    (by simp [sigOf, hpres, afterPos]) hf

/-- A world whose properties at addresses `a` and `b` are known; all others
come from a background world. -/
def twoWorld {V : Type} (w0 : World V) (a b : Nat) (pa pb : PropSt V) : World V :=
  fun j => if j = a then pa else if j = b then pb else w0 j

/-- A property with a single observer on each dispatcher. -/
def obsProp {V : Type} (v : V) (i1 t1 n1 i2 t2 n2 : Nat)
    (conn : Option Nat) (cid : Nat) : PropSt V :=
  ⟨v, ⟨[(i1, PCb.observe t1)], n1⟩, ⟨[(i2, PCb.observe t2)], n2⟩, conn, cid⟩

/-- A property with no before-change subscribers and a given on-change map. -/
def srcProp {V : Type} (v : V) (nbp : Nat) (sl : List (Nat × PCb)) (nb : Nat)
    (conn : Option Nat) (cid : Nat) : PropSt V :=
  ⟨v, ⟨[], nbp⟩, ⟨sl, nb⟩, conn, cid⟩

theorem twoWorld_a {V : Type} (w0 : World V) (a b : Nat) (pa pb : PropSt V) :
    twoWorld w0 a b pa pb a = pa := by
  simp [twoWorld]

theorem twoWorld_b {V : Type} (w0 : World V) (a b : Nat) (pa pb : PropSt V)
    (hab : a ≠ b) : twoWorld w0 a b pa pb b = pb := by
  simp [twoWorld, Ne.symm hab]

theorem wupdate_twoWorld_a {V : Type} (w0 : World V) (a b : Nat) (pa pb pa' : PropSt V) :
    wupdate (twoWorld w0 a b pa pb) a pa' = twoWorld w0 a b pa' pb := by
  funext j
  by_cases h : j = a <;> simp [wupdate, twoWorld, h]

theorem wupdate_twoWorld_b {V : Type} (w0 : World V) (a b : Nat) (pa pb pb' : PropSt V)
    (hab : a ≠ b) : wupdate (twoWorld w0 a b pa pb) b pb' = twoWorld w0 a b pa pb' := by
  funext j
  by_cases h1 : j = b
  · subst h1
    simp [wupdate, twoWorld, Ne.symm hab]
  · by_cases h2 : j = a <;> simp [wupdate, twoWorld, h1, h2, hab]

/-- `connect_from` on a pair of properties — the target carrying one observer
per dispatcher, the source fresh of subscribers: the forwarder is subscribed
on the source's on-change signal under the fresh id `nb + 1`, the binding
members are recorded, and the target is synchronised to the source's value
(notifying its observers exactly when the values differed). -/
theorem connect_from_sync {V : Type} [DecidableEq V] (w0 : World V)
    (a b i1 t1 n1 i2 t2 n2 nbp nb cid cidb : Nat) (va vb : V)
    (hab : a ≠ b) (hnb : nb + 1 < USIZE) :
    connect_from 10 (twoWorld w0 a b
        (obsProp va i1 t1 n1 i2 t2 n2 none cid)
        (srcProp vb nbp [] nb none cidb)) [] a b =
      some (twoWorld w0 a b
        (obsProp vb i1 t1 n1 i2 t2 n2 (some b) (nb + 1))
        (srcProp vb nbp [(nb + 1, PCb.forward a)] (nb + 1) none cidb),
        if va = vb then [] else [(t1, va), (t2, vb)]) := by
  have hba : b ≠ a := Ne.symm hab
  have hpd : pdisconnect (twoWorld w0 a b
      (obsProp va i1 t1 n1 i2 t2 n2 none cid)
      (srcProp vb nbp [] nb none cidb)) a =
      twoWorld w0 a b (obsProp va i1 t1 n1 i2 t2 n2 none cid)
        (srcProp vb nbp [] nb none cidb) := by
    simp [pdisconnect, twoWorld_a, obsProp]
  rw [connect_from, hpd]
  rw [show ({ twoWorld w0 a b (obsProp va i1 t1 n1 i2 t2 n2 none cid)
        (srcProp vb nbp [] nb none cidb) a with m_connection := some b } : PropSt V) =
      obsProp va i1 t1 n1 i2 t2 n2 (some b) cid from by
    simp [twoWorld_a, obsProp]]
  rw [wupdate_twoWorld_a, twoWorld_b _ _ _ _ _ hab]
  rw [show connectS (PCb.forward a) (srcProp vb nbp ([] : List (Nat × PCb)) nb none cidb).m_on_change =
      (nb + 1, ⟨[(nb + 1, PCb.forward a)], nb + 1⟩) from by
    simp [connectS, srcProp, insertSorted, Nat.mod_eq_of_lt hnb]]
  rw [show ({ srcProp vb nbp ([] : List (Nat × PCb)) nb none cidb with
        m_on_change := ((nb + 1, (⟨[(nb + 1, PCb.forward a)], nb + 1⟩ : SigSt PCb))).2 } : PropSt V) =
      srcProp vb nbp [(nb + 1, PCb.forward a)] (nb + 1) none cidb from by
    simp [srcProp]]
  rw [wupdate_twoWorld_b _ _ _ _ _ _ hab, twoWorld_a]
  rw [show ({ obsProp va i1 t1 n1 i2 t2 n2 (some b) cid with
        m_connection_id := ((nb + 1, (⟨[(nb + 1, PCb.forward a)], nb + 1⟩ : SigSt PCb))).1 } : PropSt V) =
      obsProp va i1 t1 n1 i2 t2 n2 (some b) (nb + 1) from by
    simp [obsProp]]
  rw [wupdate_twoWorld_a, twoWorld_b _ _ _ _ _ hab]
  by_cases hv : va = vb
  · rw [show (srcProp vb nbp [(nb + 1, PCb.forward a)] (nb + 1) none cidb).m_value = vb from rfl]
    rw [pset_noop 9 _ [] a vb (by rw [twoWorld_a]; exact hv.symm)]
    rw [if_pos hv, hv]
  · rw [show (srcProp vb nbp [(nb + 1, PCb.forward a)] (nb + 1) none cidb).m_value = vb from rfl]
    have hrun := pset_run 9
      (twoWorld w0 a b (obsProp va i1 t1 n1 i2 t2 n2 (some b) (nb + 1))
        (srcProp vb nbp [(nb + 1, PCb.forward a)] (nb + 1) none cidb)) [] a vb
      [(i1, PCb.observe t1)] [(i2, PCb.observe t2)]
      (by rw [twoWorld_a]; exact fun h => hv h.symm)
      (by rw [twoWorld_a]; rfl) (by rw [twoWorld_a]; rfl)
      (by simp [isObs]) (by simp [isObs]) (by simp [keysOf]) (by simp [keysOf])
      (by simp) (by simp)
    rw [hrun]
    rw [show ({ twoWorld w0 a b (obsProp va i1 t1 n1 i2 t2 n2 (some b) (nb + 1))
          (srcProp vb nbp [(nb + 1, PCb.forward a)] (nb + 1) none cidb) a with
          m_value := vb } : PropSt V) =
        obsProp vb i1 t1 n1 i2 t2 n2 (some b) (nb + 1) from by
      simp [twoWorld_a, obsProp]]
    rw [wupdate_twoWorld_a]
    rw [if_neg hv]
    rw [show (twoWorld w0 a b (obsProp va i1 t1 n1 i2 t2 n2 (some b) (nb + 1))
        (srcProp vb nbp [(nb + 1, PCb.forward a)] (nb + 1) none cidb) a).m_value = va from by
      simp [twoWorld_a, obsProp]]
    simp [obsLog, tagOf]

/-- `set` on the source of a live binding: the source's observers (none here)
and the forwarder run inside the source's on-change fan-out, so the bound
property is updated synchronously and its observers fire exactly once each —
or, when the new value equals the current one, nothing fires at all. -/
theorem pset_propagate {V : Type} [DecidableEq V] (w0 : World V)
    (a b i1 t1 n1 i2 t2 n2 nbp nb cidb : Nat) (cb0 : Option Nat) (u v2 : V)
    (hab : a ≠ b) :
    pset 10 (twoWorld w0 a b
        (obsProp u i1 t1 n1 i2 t2 n2 (some b) (nb + 1))
        (srcProp u nbp [(nb + 1, PCb.forward a)] (nb + 1) cb0 cidb)) [] b v2 =
      some (twoWorld w0 a b
        (obsProp v2 i1 t1 n1 i2 t2 n2 (some b) (nb + 1))
        (srcProp v2 nbp [(nb + 1, PCb.forward a)] (nb + 1) cb0 cidb),
        if v2 = u then [] else [(t1, u), (t2, v2)]) := by
  by_cases hv : v2 = u
  · subst hv
    rw [pset_noop 9 _ [] b v2 (by rw [twoWorld_b _ _ _ _ _ hab]; rfl)]
    rw [if_pos rfl]
  · rw [show (10 : Nat) = 9 + 1 from rfl, pset]
    rw [if_neg (show ¬ v2 = (twoWorld w0 a b
        (obsProp u i1 t1 n1 i2 t2 n2 (some b) (nb + 1))
        (srcProp u nbp [(nb + 1, PCb.forward a)] (nb + 1) cb0 cidb) b).m_value from by
      rw [twoWorld_b _ _ _ _ _ hab]; exact hv)]
    have hprior : emitLoopP 9 (twoWorld w0 a b
        (obsProp u i1 t1 n1 i2 t2 n2 (some b) (nb + 1))
        (srcProp u nbp [(nb + 1, PCb.forward a)] (nb + 1) cb0 cidb)) [] b false
        ((twoWorld w0 a b
          (obsProp u i1 t1 n1 i2 t2 n2 (some b) (nb + 1))
          (srcProp u nbp [(nb + 1, PCb.forward a)] (nb + 1) cb0 cidb) b).m_value) none =
        some (twoWorld w0 a b
          (obsProp u i1 t1 n1 i2 t2 n2 (some b) (nb + 1))
          (srcProp u nbp [(nb + 1, PCb.forward a)] (nb + 1) cb0 cidb), []) :=
      emitLoopP_end 9 _ [] b false _ none
        (by rw [twoWorld_b _ _ _ _ _ hab]; simp [sigOf, srcProp]) (by omega)
    simp only [hprior]
    rw [show ({ twoWorld w0 a b
          (obsProp u i1 t1 n1 i2 t2 n2 (some b) (nb + 1))
          (srcProp u nbp [(nb + 1, PCb.forward a)] (nb + 1) cb0 cidb) b with
          m_value := v2 } : PropSt V) =
        srcProp v2 nbp [(nb + 1, PCb.forward a)] (nb + 1) cb0 cidb from by
      simp [twoWorld_b _ _ _ _ _ hab, srcProp]]
    rw [wupdate_twoWorld_b _ _ _ _ _ _ hab]
    have hinner := pset_run 7 (twoWorld w0 a b
        (obsProp u i1 t1 n1 i2 t2 n2 (some b) (nb + 1))
        (srcProp v2 nbp [(nb + 1, PCb.forward a)] (nb + 1) cb0 cidb)) [] a v2
      [(i1, PCb.observe t1)] [(i2, PCb.observe t2)]
      (by rw [twoWorld_a]; exact hv)
      (by rw [twoWorld_a]; rfl) (by rw [twoWorld_a]; rfl)
      (by simp [isObs]) (by simp [isObs]) (by simp [keysOf]) (by simp [keysOf])
      (by simp) (by simp)
    rw [show ({ twoWorld w0 a b
          (obsProp u i1 t1 n1 i2 t2 n2 (some b) (nb + 1))
          (srcProp v2 nbp [(nb + 1, PCb.forward a)] (nb + 1) cb0 cidb) a with
          m_value := v2 } : PropSt V) =
        obsProp v2 i1 t1 n1 i2 t2 n2 (some b) (nb + 1) from by
      simp [twoWorld_a, obsProp]] at hinner
    rw [wupdate_twoWorld_a] at hinner
    rw [show (twoWorld w0 a b
        (obsProp u i1 t1 n1 i2 t2 n2 (some b) (nb + 1))
        (srcProp v2 nbp [(nb + 1, PCb.forward a)] (nb + 1) cb0 cidb) a).m_value = u from by
      simp [twoWorld_a, obsProp]] at hinner
    have hfwd := emit_forward_only 8 (twoWorld w0 a b
        (obsProp u i1 t1 n1 i2 t2 n2 (some b) (nb + 1))
        (srcProp v2 nbp [(nb + 1, PCb.forward a)] (nb + 1) cb0 cidb)) [] a b (nb + 1) v2
      (by rw [twoWorld_b _ _ _ _ _ hab]; rfl)
      (twoWorld w0 a b
        (obsProp v2 i1 t1 n1 i2 t2 n2 (some b) (nb + 1))
        (srcProp v2 nbp [(nb + 1, PCb.forward a)] (nb + 1) cb0 cidb))
      ([] ++ obsLog [(i1, PCb.observe t1)] u ++ obsLog [(i2, PCb.observe t2)] v2)
      hinner
      (by rw [twoWorld_b _ _ _ _ _ hab]; rfl) (by omega)
    rw [show (twoWorld w0 a b
        (obsProp u i1 t1 n1 i2 t2 n2 (some b) (nb + 1))
        (srcProp v2 nbp [(nb + 1, PCb.forward a)] (nb + 1) cb0 cidb) b).m_value = v2 from by
      simp [twoWorld_b _ _ _ _ _ hab, srcProp]]
    rw [show (9 : Nat) = 8 + 1 from rfl, hfwd]
    rw [if_neg hv]
    simp [obsLog, tagOf]

/-- `Property::disconnect` on the bound property removes the forwarder from
the source's on-change signal and clears the binding members; a subsequent
`set` on the source then no longer reaches the formerly bound property and
fires none of its dispatchers. -/
theorem disconnect_then_set {V : Type} [DecidableEq V] (w0 : World V)
    (a b i1 t1 n1 i2 t2 n2 nbp nb cidb : Nat) (cb0 : Option Nat) (u v3 : V)
    (hab : a ≠ b) :
    pdisconnect (twoWorld w0 a b
        (obsProp u i1 t1 n1 i2 t2 n2 (some b) (nb + 1))
        (srcProp u nbp [(nb + 1, PCb.forward a)] (nb + 1) cb0 cidb)) a =
      twoWorld w0 a b
        (obsProp u i1 t1 n1 i2 t2 n2 none (USIZE - 1))
        (srcProp u nbp [] (nb + 1) cb0 cidb) ∧
    pset 10 (twoWorld w0 a b
        (obsProp u i1 t1 n1 i2 t2 n2 none (USIZE - 1))
        (srcProp u nbp [] (nb + 1) cb0 cidb)) [] b v3 =
      some (twoWorld w0 a b
        (obsProp u i1 t1 n1 i2 t2 n2 none (USIZE - 1))
        (srcProp v3 nbp [] (nb + 1) cb0 cidb), []) := by
  have hba : b ≠ a := Ne.symm hab
  constructor
  · funext j
    by_cases h1 : j = a
    · subst h1
      simp [pdisconnect, twoWorld, wupdate, obsProp, srcProp, hab, hba,
        disconnectSig, eraseKey]
    · by_cases h2 : j = b
      · subst h2
        simp [pdisconnect, twoWorld, wupdate, obsProp, srcProp, hab, hba, h1,
          disconnectSig, eraseKey]
      · simp [pdisconnect, twoWorld, wupdate, obsProp, srcProp, hab, hba, h1, h2,
          disconnectSig, eraseKey]
  · by_cases hv : v3 = u
    · subst hv
      rw [pset_noop 9 _ [] b v3 (by rw [twoWorld_b _ _ _ _ _ hab]; rfl)]
    · have hrun := pset_run 9 (twoWorld w0 a b
          (obsProp u i1 t1 n1 i2 t2 n2 none (USIZE - 1))
          (srcProp u nbp [] (nb + 1) cb0 cidb)) [] b v3 [] []
        (by rw [twoWorld_b _ _ _ _ _ hab]; exact hv)
        (by rw [twoWorld_b _ _ _ _ _ hab]; rfl) (by rw [twoWorld_b _ _ _ _ _ hab]; rfl)
        (by simp) (by simp) (by simp [keysOf]) (by simp [keysOf])
        (by simp) (by simp)
      rw [hrun]
      rw [show ({ twoWorld w0 a b
            (obsProp u i1 t1 n1 i2 t2 n2 none (USIZE - 1))
            (srcProp u nbp [] (nb + 1) cb0 cidb) b with
            m_value := v3 } : PropSt V) =
          srcProp v3 nbp [] (nb + 1) cb0 cidb from by
        simp [twoWorld_b _ _ _ _ _ hab, srcProp]]
      rw [wupdate_twoWorld_b _ _ _ _ _ _ hab]
      simp [obsLog]

/-- Claim C9: for properties `A` (one observer per dispatcher) and `B` (no
subscribers): immediately after `A.connect_from(B)`, `A.get()` equals
`B.get()`; after a subsequent `B.set(v2)` with `v2` different from `B`'s
value, `A.get() = v2` and `A`'s after-change dispatcher fires exactly once
(the log gains exactly `(t1, vb)` then `(t2, v2)`); and after
`A.disconnect()`, a subsequent `B.set(v3)` neither changes `A.get()` nor
fires any of `A`'s dispatchers (the log delta is empty and `A`'s state is
untouched). -/
theorem c9_binding {V : Type} [DecidableEq V] (w0 : World V)
    (a b i1 t1 n1 i2 t2 n2 nbp nb cid cidb : Nat) (va vb v2 v3 : V)
    (hab : a ≠ b) (hnb : nb + 1 < USIZE) (hv2 : ¬ v2 = vb) :
    (connect_from 10 (twoWorld w0 a b
        (obsProp va i1 t1 n1 i2 t2 n2 none cid)
        (srcProp vb nbp [] nb none cidb)) [] a b =
      some (twoWorld w0 a b
        (obsProp vb i1 t1 n1 i2 t2 n2 (some b) (nb + 1))
        (srcProp vb nbp [(nb + 1, PCb.forward a)] (nb + 1) none cidb),
        if va = vb then [] else [(t1, va), (t2, vb)]) ∧
      (twoWorld w0 a b
        (obsProp vb i1 t1 n1 i2 t2 n2 (some b) (nb + 1))
        (srcProp vb nbp [(nb + 1, PCb.forward a)] (nb + 1) none cidb) a).m_value =
      (twoWorld w0 a b
        (obsProp vb i1 t1 n1 i2 t2 n2 (some b) (nb + 1))
        (srcProp vb nbp [(nb + 1, PCb.forward a)] (nb + 1) none cidb) b).m_value) ∧
    (pset 10 (twoWorld w0 a b
        (obsProp vb i1 t1 n1 i2 t2 n2 (some b) (nb + 1))
        (srcProp vb nbp [(nb + 1, PCb.forward a)] (nb + 1) none cidb)) [] b v2 =
      some (twoWorld w0 a b
        (obsProp v2 i1 t1 n1 i2 t2 n2 (some b) (nb + 1))
        (srcProp v2 nbp [(nb + 1, PCb.forward a)] (nb + 1) none cidb),
        [(t1, vb), (t2, v2)]) ∧
      (twoWorld w0 a b
        (obsProp v2 i1 t1 n1 i2 t2 n2 (some b) (nb + 1))
        (srcProp v2 nbp [(nb + 1, PCb.forward a)] (nb + 1) none cidb) a).m_value = v2) ∧
    (pdisconnect (twoWorld w0 a b
        (obsProp v2 i1 t1 n1 i2 t2 n2 (some b) (nb + 1))
        (srcProp v2 nbp [(nb + 1, PCb.forward a)] (nb + 1) none cidb)) a =
      twoWorld w0 a b
        (obsProp v2 i1 t1 n1 i2 t2 n2 none (USIZE - 1))
        (srcProp v2 nbp [] (nb + 1) none cidb) ∧
      pset 10 (twoWorld w0 a b
        (obsProp v2 i1 t1 n1 i2 t2 n2 none (USIZE - 1))
        (srcProp v2 nbp [] (nb + 1) none cidb)) [] b v3 =
      some (twoWorld w0 a b
        (obsProp v2 i1 t1 n1 i2 t2 n2 none (USIZE - 1))
        (srcProp v3 nbp [] (nb + 1) none cidb), []) ∧
      (twoWorld w0 a b
        (obsProp v2 i1 t1 n1 i2 t2 n2 none (USIZE - 1))
        (srcProp v3 nbp [] (nb + 1) none cidb)) a =
      (twoWorld w0 a b
        (obsProp v2 i1 t1 n1 i2 t2 n2 none (USIZE - 1))
        (srcProp v2 nbp [] (nb + 1) none cidb)) a) := by
  refine ⟨⟨connect_from_sync w0 a b i1 t1 n1 i2 t2 n2 nbp nb cid cidb va vb hab hnb, ?_⟩,
    ⟨?_, ?_⟩, ?_, ?_, ?_⟩
  · rw [twoWorld_a, twoWorld_b _ _ _ _ _ hab]
    rfl
  · have h := pset_propagate w0 a b i1 t1 n1 i2 t2 n2 nbp nb cidb none vb v2 hab
    rwa [if_neg hv2] at h
  · rw [twoWorld_a]
    rfl
  · exact (disconnect_then_set w0 a b i1 t1 n1 i2 t2 n2 nbp nb cidb none v2 v3 hab).1
  · exact (disconnect_then_set w0 a b i1 t1 n1 i2 t2 n2 nbp nb cidb none v2 v3 hab).2
  · rw [twoWorld_a, twoWorld_a]

/-- Concrete worlds for the C9 witness (property 0 bound from property 1). -/
def c9w0 : World Nat :=
  twoWorld constWorld 0 1 (obsProp 3 1 10 1 1 20 1 none 0) (srcProp 4 0 [] 0 none 0)

def c9w1 : World Nat :=
  twoWorld constWorld 0 1 (obsProp 4 1 10 1 1 20 1 (some 1) 1)
    (srcProp 4 0 [(1, PCb.forward 0)] 1 none 0)

def c9w2 : World Nat :=
  twoWorld constWorld 0 1 (obsProp 7 1 10 1 1 20 1 (some 1) 1)
    (srcProp 7 0 [(1, PCb.forward 0)] 1 none 0)

def c9w3 : World Nat :=
  twoWorld constWorld 0 1 (obsProp 7 1 10 1 1 20 1 none (USIZE - 1))
    (srcProp 7 0 [] 1 none 0)

def c9w4 : World Nat :=
  twoWorld constWorld 0 1 (obsProp 7 1 10 1 1 20 1 none (USIZE - 1))
    (srcProp 9 0 [] 1 none 0)

theorem c9_witness :
    ((0 : Nat) ≠ 1 ∧ 0 + 1 < USIZE ∧ ¬ (7 : Nat) = 4) ∧
      ((connect_from 10 c9w0 [] 0 1 =
          some (c9w1, if (3 : Nat) = 4 then [] else [(10, 3), (20, 4)]) ∧
        (c9w1 0).m_value = (c9w1 1).m_value) ∧
      (pset 10 c9w1 [] 1 7 = some (c9w2, [(10, 4), (20, 7)]) ∧
        (c9w2 0).m_value = 7) ∧
      (pdisconnect c9w2 0 = c9w3 ∧
        pset 10 c9w3 [] 1 9 = some (c9w4, []) ∧
        c9w4 0 = c9w3 0)) :=
  ⟨⟨by decide, by decide, by decide⟩,
    c9_binding constWorld 0 1 1 10 1 1 20 1 0 0 0 0 3 4 7 9
      (by decide) (by decide) (by decide)⟩

/-- Run a sequence of `set` calls on property `b`. -/
def psetSeq {V : Type} [DecidableEq V] (b : Nat) : World V → List V → Option (World V)
  | w, [] => some w
  | w, v :: rest =>
    match pset 10 w [] b v with
    | none => none
    | some (w', _) => psetSeq b w' rest

/-- Any sequence of `set` calls on the source of a live binding keeps the
world in the linked shape, with both values equal. -/
theorem psetSeq_linked {V : Type} [DecidableEq V] (w0 : World V)
    (a b i1 t1 n1 i2 t2 n2 nbp nb cidb : Nat) (cb0 : Option Nat)
    (hab : a ≠ b) :
    ∀ (vs : List V) (u : V), ∃ u',
      psetSeq b (twoWorld w0 a b
        (obsProp u i1 t1 n1 i2 t2 n2 (some b) (nb + 1))
        (srcProp u nbp [(nb + 1, PCb.forward a)] (nb + 1) cb0 cidb)) vs =
      some (twoWorld w0 a b
        (obsProp u' i1 t1 n1 i2 t2 n2 (some b) (nb + 1))
        (srcProp u' nbp [(nb + 1, PCb.forward a)] (nb + 1) cb0 cidb)) := by
  intro vs
  induction vs with
  | nil => exact fun u => ⟨u, rfl⟩
  | cons v rest ih =>
    intro u
    obtain ⟨u', hu'⟩ := ih v
    refine ⟨u', ?_⟩
    simp only [psetSeq,
      pset_propagate w0 a b i1 t1 n1 i2 t2 n2 nbp nb cidb cb0 u v hab]
    exact hu'

/-- Concrete worlds for the C3 counterexample: property 0 is bound from
property 1 (both values 0), then the source is written silently. -/
def c3w1 : World Nat :=
  ((connect_from 10 constWorld [] 0 1).getD (constWorld, [])).1

def c3w2 : World Nat := set_with_no_emit c3w1 1 5

/-- Claim C3, counterexample: with property 0 bound from property 1 (the
binding still active, no notification in flight), the public-interface
operation `set_with_no_emit` on the source leaves the bound property stale:
`A.get() = 0` while `B.get() = 5`. -/
theorem c3_counterexample :
    (c3w2 0).m_connection = some 1 ∧ (c3w2 0).m_value = 0 ∧ (c3w2 1).m_value = 5 :=
  ⟨rfl, rfl, rfl⟩

/-- Claim C3 (amended): while `A` is bound to `B`, `A.get() = B.get()` holds
immediately after `connect_from` and is preserved by every completed `B.set`
(any sequence of them); it is not an invariant of EVERY public-interface
operation — operations bypassing the source's after-change dispatcher, such
as `set_with_no_emit` on the source, break it (see the counterexample). -/
theorem c3_amended {V : Type} [DecidableEq V] (w0 : World V)
    (a b i1 t1 n1 i2 t2 n2 nbp nb cid cidb : Nat) (va vb : V) (vs : List V)
    (hab : a ≠ b) (hnb : nb + 1 < USIZE) :
    connect_from 10 (twoWorld w0 a b
        (obsProp va i1 t1 n1 i2 t2 n2 none cid)
        (srcProp vb nbp [] nb none cidb)) [] a b =
      some (twoWorld w0 a b
        (obsProp vb i1 t1 n1 i2 t2 n2 (some b) (nb + 1))
        (srcProp vb nbp [(nb + 1, PCb.forward a)] (nb + 1) none cidb),
        if va = vb then [] else [(t1, va), (t2, vb)]) ∧
    ∃ w', psetSeq b (twoWorld w0 a b
        (obsProp vb i1 t1 n1 i2 t2 n2 (some b) (nb + 1))
        (srcProp vb nbp [(nb + 1, PCb.forward a)] (nb + 1) none cidb)) vs = some w' ∧
      (w' a).m_value = (w' b).m_value ∧ (w' a).m_connection = some b := by
  refine ⟨connect_from_sync w0 a b i1 t1 n1 i2 t2 n2 nbp nb cid cidb va vb hab hnb, ?_⟩
  obtain ⟨u', hu'⟩ := psetSeq_linked w0 a b i1 t1 n1 i2 t2 n2 nbp nb cidb none hab vs vb
  refine ⟨_, hu', ?_, ?_⟩
  · rw [twoWorld_a, twoWorld_b _ _ _ _ _ hab]
    rfl
  · rw [twoWorld_a]
    rfl

theorem c3_witness :
    ((0 : Nat) ≠ 1 ∧ 0 + 1 < USIZE) ∧
      (connect_from 10 (twoWorld constWorld 0 1
          (obsProp 3 1 10 1 1 20 1 none 0)
          (srcProp 4 0 [] 0 none 0)) [] 0 1 =
        some (twoWorld constWorld 0 1
          (obsProp 4 1 10 1 1 20 1 (some 1) 1)
          (srcProp 4 0 [(1, PCb.forward 0)] 1 none 0),
          if (3 : Nat) = 4 then [] else [(10, 3), (20, 4)]) ∧
      ∃ w', psetSeq 1 (twoWorld constWorld 0 1
          (obsProp 4 1 10 1 1 20 1 (some 1) 1)
          (srcProp 4 0 [(1, PCb.forward 0)] 1 none 0)) [5, 6] = some w' ∧
        (w' 0).m_value = (w' 1).m_value ∧ (w' 0).m_connection = some 1) :=
  ⟨⟨by decide, by decide⟩,
    c3_amended constWorld 0 1 1 10 1 1 20 1 0 0 0 0 3 4 [5, 6]
      (by decide) (by decide)⟩

/-- Claim C10: copy-construction copies only the value — the copy holds the
source's value, is unbound even if the source was bound, and has empty
subscriber sets on both dispatchers (`Signal` copying is deleted).
Copy-assignment routes through `set(source.get())`: with equal values nothing
fires and nothing changes; with different values the target's own observers
fire around the value update while the target's binding members and
subscriber maps stay its own, and the source object is untouched — neither
the source's binding nor its subscribers are transferred. -/
theorem c10_copy {V : Type} [DecidableEq V] (f : Nat) (w : World V) (lg : Log V)
    (q p : Nat) (P Q : List (Nat × PCb))
    (hP : (w q).m_prior_to_change.m_slots = P)
    (hQ : (w q).m_on_change.m_slots = Q)
    (hPobs : ∀ e ∈ P, isObs e.2 = true)
    (hQobs : ∀ e ∈ Q, isObs e.2 = true)
    (hPsort : List.Pairwise (· < ·) (keysOf P))
    (hQsort : List.Pairwise (· < ·) (keysOf Q))
    (hfP : P.length < f) (hfQ : Q.length < f) :
    (∀ pr : PropSt V, (copyCtor pr).m_value = pr.m_value ∧
      (copyCtor pr).m_connection = none ∧
      (copyCtor pr).m_connection_id = USIZE - 1 ∧
      (copyCtor pr).m_prior_to_change.m_slots = [] ∧
      (copyCtor pr).m_on_change.m_slots = []) ∧
    copyAssign (f + 1) w lg q p = pset (f + 1) w lg q ((w p).m_value) ∧
    ((w p).m_value = (w q).m_value → copyAssign (f + 1) w lg q p = some (w, lg)) ∧
    (¬ (w p).m_value = (w q).m_value →
      copyAssign (f + 1) w lg q p =
        some (wupdate w q { w q with m_value := (w p).m_value },
          lg ++ obsLog P ((w q).m_value) ++ obsLog Q ((w p).m_value)) ∧
      (wupdate w q { w q with m_value := (w p).m_value } q).m_connection =
        (w q).m_connection ∧
      (wupdate w q { w q with m_value := (w p).m_value } q).m_on_change =
        (w q).m_on_change ∧
      (wupdate w q { w q with m_value := (w p).m_value } q).m_prior_to_change =
        (w q).m_prior_to_change ∧
      (p ≠ q → wupdate w q { w q with m_value := (w p).m_value } p = w p)) := by
  refine ⟨fun pr => ⟨rfl, rfl, rfl, rfl, rfl⟩, rfl, ?_, ?_⟩
  · intro hv
    exact pset_noop f w lg q ((w p).m_value) hv
  · intro hv
    refine ⟨pset_run f w lg q ((w p).m_value) P Q hv hP hQ hPobs hQobs
        hPsort hQsort hfP hfQ, ?_, ?_, ?_, ?_⟩
    · rw [wupdate_same]
    · rw [wupdate_same]
    · rw [wupdate_same]
    · intro hpq
      rw [wupdate_other _ _ _ _ hpq]

theorem c10_witness :
    ((obsWorld 0).m_prior_to_change.m_slots = [(1, PCb.observe 10)] ∧
        (obsWorld 0).m_on_change.m_slots = [(1, PCb.observe 20)] ∧
        ([(1, PCb.observe 10)] : List (Nat × PCb)).length < 2) ∧
      ((∀ pr : PropSt Nat, (copyCtor pr).m_value = pr.m_value ∧
          (copyCtor pr).m_connection = none ∧
          (copyCtor pr).m_connection_id = USIZE - 1 ∧
          (copyCtor pr).m_prior_to_change.m_slots = [] ∧
          (copyCtor pr).m_on_change.m_slots = []) ∧
        copyAssign 3 obsWorld [] 0 1 = pset 3 obsWorld [] 0 ((obsWorld 1).m_value) ∧
        ((obsWorld 1).m_value = (obsWorld 0).m_value →
          copyAssign 3 obsWorld [] 0 1 = some (obsWorld, [])) ∧
        (¬ (obsWorld 1).m_value = (obsWorld 0).m_value →
          copyAssign 3 obsWorld [] 0 1 =
            some (wupdate obsWorld 0 { obsWorld 0 with m_value := (obsWorld 1).m_value },
              [] ++ obsLog [(1, PCb.observe 10)] ((obsWorld 0).m_value) ++
                obsLog [(1, PCb.observe 20)] ((obsWorld 1).m_value)) ∧
          (wupdate obsWorld 0 { obsWorld 0 with m_value := (obsWorld 1).m_value }
              0).m_connection = (obsWorld 0).m_connection ∧
          (wupdate obsWorld 0 { obsWorld 0 with m_value := (obsWorld 1).m_value }
              0).m_on_change = (obsWorld 0).m_on_change ∧
          (wupdate obsWorld 0 { obsWorld 0 with m_value := (obsWorld 1).m_value }
              0).m_prior_to_change = (obsWorld 0).m_prior_to_change ∧
          ((1 : Nat) ≠ 0 → wupdate obsWorld 0
              { obsWorld 0 with m_value := (obsWorld 1).m_value } 1 = obsWorld 1))) :=
  ⟨⟨rfl, rfl, by decide⟩,
    c10_copy 2 obsWorld [] 0 1 [(1, PCb.observe 10)] [(1, PCb.observe 20)]
      rfl rfl (by decide) (by decide) (by decide) (by decide) (by decide) (by decide)⟩
